import Mathlib

/-!
Verification of the PenPlotter core: a shallow embedding of the geometry
model, toolpath optimizer, device protocol layer (servo mapping, bilinear
height compensation, smooth pen stepping) and the execution engine,
together with proofs of the specified properties.

Numeric convention: Python floats are modelled by exact arithmetic
(rationals for the algorithmic code, reals where trigonometric functions
are involved).
-/

namespace PenPlotter

/-- A point in millimetres, as in `pattern.py` (`XY = Tuple[float, float]`). -/
abbrev Pt := ℚ × ℚ

/-! ## Bilinear height compensation (`penplot_helper.py`, `Rect` / `Compensation`) -/

/-- Embedding of `penplot_helper.Rect`. -/
structure Rect where
  x0 : ℚ
  y0 : ℚ
  x1 : ℚ
  y1 : ℚ

/-- Embedding of `penplot_helper.Compensation`: a rectangle with four corner
heights, each a pen position in `[0,1]`. -/
structure Compensation where
  area : Rect
  hBL : ℚ
  hBR : ℚ
  hTL : ℚ
  hTR : ℚ

/-- Embedding of `Compensation.height_at`: clip `(x, y)` into the rectangle,
then bilinearly blend the four corner heights; a degenerate rectangle yields
the bottom-left height. -/
def height_at (c : Compensation) (x y : ℚ) : ℚ :=
  let x := min (max x c.area.x0) c.area.x1
  let y := min (max y c.area.y0) c.area.y1
  let dx := c.area.x1 - c.area.x0
  let dy := c.area.y1 - c.area.y0
  if dx ≤ 0 ∨ dy ≤ 0 then c.hBL
  else
    let u := (x - c.area.x0) / dx
    let v := (y - c.area.y0) / dy
    (1-u)*(1-v)*c.hBL + u*(1-v)*c.hBR + (1-u)*v*c.hTL + u*v*c.hTR

/-! ## Servo mapping (`GRBL._servo_map` and `ServoCalibration.to_pwm`) -/

/-- `math.radians`. -/
noncomputable def radians (d : ℝ) : ℝ := d * Real.pi / 180

/-- Embedding of `GRBL._servo_map`: clamp `pos` into `[0,1]`, apply the
arcsine linkage correction `g = asin(pos * sin(theta_max)) / theta_max`,
then round the linear blend `s_down + g * (s_up - s_down)`. -/
noncomputable def servo_map (s_down s_up : ℤ) (travel_deg : ℝ) (pos : ℝ) : ℤ :=
  let p := max 0 (min 1 pos)
  let theta := radians travel_deg
  let g := Real.arcsin (p * Real.sin theta) / theta
  round ((s_down : ℝ) + g * ((s_up : ℝ) - (s_down : ℝ)))

/-- Embedding of `ServoCalibration.to_pwm` (`penplotter/config.py`): the naive
linear map from a clamped pen position to a PWM value. -/
noncomputable def to_pwm (down up : ℤ) (value : ℝ) : ℤ :=
  let v := max 0 (min 1 value)
  round ((down : ℝ) + v * ((up : ℝ) - (down : ℝ)))

/-- Helper: `round` is monotone on the reals. -/
theorem roundMonoAux {x y : ℝ} (h : x ≤ y) : round x ≤ round y := by
  rw [round_eq, round_eq]
  exact Int.floor_mono (by linarith)

/-- Helper: evaluation of `height_at` inside a non-degenerate rectangle. -/
theorem height_at_inside (c : Compensation) (x y : ℚ)
    (hdx : 0 < c.area.x1 - c.area.x0) (hdy : 0 < c.area.y1 - c.area.y0)
    (hx0 : c.area.x0 ≤ x) (hx1 : x ≤ c.area.x1)
    (hy0 : c.area.y0 ≤ y) (hy1 : y ≤ c.area.y1) :
    height_at c x y =
      (1 - (x - c.area.x0) / (c.area.x1 - c.area.x0)) *
          (1 - (y - c.area.y0) / (c.area.y1 - c.area.y0)) * c.hBL +
        (x - c.area.x0) / (c.area.x1 - c.area.x0) *
          (1 - (y - c.area.y0) / (c.area.y1 - c.area.y0)) * c.hBR +
        (1 - (x - c.area.x0) / (c.area.x1 - c.area.x0)) *
          ((y - c.area.y0) / (c.area.y1 - c.area.y0)) * c.hTL +
        (x - c.area.x0) / (c.area.x1 - c.area.x0) *
          ((y - c.area.y0) / (c.area.y1 - c.area.y0)) * c.hTR := by
  unfold height_at
  rw [if_neg (by push_neg; constructor <;> linarith)]
  have hx : min (max x c.area.x0) c.area.x1 = x := by
    rw [max_eq_left hx0, min_eq_left hx1]
  have hy : min (max y c.area.y0) c.area.y1 = y := by
    rw [max_eq_left hy0, min_eq_left hy1]
  rw [hx, hy]

/-- Claim C2: `height_at` clips the query point into the rectangle and
returns the bilinear blend of the four corner heights; at each corner it
returns exactly that corner height, at the exact centre it returns the
average of the four corner heights, and for a degenerate rectangle it
always returns the bottom-left height. -/
theorem height_at_spec (c : Compensation) :
    (∀ x y, height_at c x y =
        height_at c (min (max x c.area.x0) c.area.x1) (min (max y c.area.y0) c.area.y1)) ∧
    ((c.area.x1 - c.area.x0 ≤ 0 ∨ c.area.y1 - c.area.y0 ≤ 0) →
        ∀ x y, height_at c x y = c.hBL) ∧
    (0 < c.area.x1 - c.area.x0 → 0 < c.area.y1 - c.area.y0 →
      (∀ x y, c.area.x0 ≤ x → x ≤ c.area.x1 → c.area.y0 ≤ y → y ≤ c.area.y1 →
        height_at c x y =
          (1 - (x - c.area.x0) / (c.area.x1 - c.area.x0)) *
              (1 - (y - c.area.y0) / (c.area.y1 - c.area.y0)) * c.hBL +
            (x - c.area.x0) / (c.area.x1 - c.area.x0) *
              (1 - (y - c.area.y0) / (c.area.y1 - c.area.y0)) * c.hBR +
            (1 - (x - c.area.x0) / (c.area.x1 - c.area.x0)) *
              ((y - c.area.y0) / (c.area.y1 - c.area.y0)) * c.hTL +
            (x - c.area.x0) / (c.area.x1 - c.area.x0) *
              ((y - c.area.y0) / (c.area.y1 - c.area.y0)) * c.hTR) ∧
      height_at c c.area.x0 c.area.y0 = c.hBL ∧
      height_at c c.area.x1 c.area.y0 = c.hBR ∧
      height_at c c.area.x0 c.area.y1 = c.hTL ∧
      height_at c c.area.x1 c.area.y1 = c.hTR ∧
      height_at c ((c.area.x0 + c.area.x1) / 2) ((c.area.y0 + c.area.y1) / 2) =
        (c.hBL + c.hBR + c.hTL + c.hTR) / 4) := by
  refine ⟨?_, ?_, ?_⟩
  · intro x y
    unfold height_at
    by_cases hd : c.area.x1 - c.area.x0 ≤ 0 ∨ c.area.y1 - c.area.y0 ≤ 0
    · simp only [if_pos hd]
    · push_neg at hd
      have hxle : c.area.x0 ≤ c.area.x1 := by linarith [hd.1]
      have hyle : c.area.y0 ≤ c.area.y1 := by linarith [hd.2]
      have hx : min (max (min (max x c.area.x0) c.area.x1) c.area.x0) c.area.x1
          = min (max x c.area.x0) c.area.x1 := by
        rw [max_eq_left (le_min (le_max_right x c.area.x0) hxle), min_eq_left (min_le_right _ _)]
      have hy : min (max (min (max y c.area.y0) c.area.y1) c.area.y0) c.area.y1
          = min (max y c.area.y0) c.area.y1 := by
        rw [max_eq_left (le_min (le_max_right y c.area.y0) hyle), min_eq_left (min_le_right _ _)]
      rw [hx, hy]
  · intro hd x y
    unfold height_at
    rw [if_pos hd]
  · intro hdx hdy
    have hxle : c.area.x0 ≤ c.area.x1 := by linarith
    have hyle : c.area.y0 ≤ c.area.y1 := by linarith
    have hxne : c.area.x1 - c.area.x0 ≠ 0 := ne_of_gt hdx
    have hyne : c.area.y1 - c.area.y0 ≠ 0 := ne_of_gt hdy
    refine ⟨fun x y hx0 hx1 hy0 hy1 => height_at_inside c x y hdx hdy hx0 hx1 hy0 hy1,
      ?_, ?_, ?_, ?_, ?_⟩
    · rw [height_at_inside c _ _ hdx hdy le_rfl hxle le_rfl hyle]
      field_simp
    · rw [height_at_inside c _ _ hdx hdy hxle le_rfl le_rfl hyle]
      field_simp
    · rw [height_at_inside c _ _ hdx hdy le_rfl hxle hyle le_rfl]
      field_simp
    · rw [height_at_inside c _ _ hdx hdy hxle le_rfl hyle le_rfl]
      field_simp
    · rw [height_at_inside c _ _ hdx hdy (by linarith) (by linarith) (by linarith) (by linarith)]
      field_simp
      ring

/-- Witness for C2 at a concrete compensation surface. -/
theorem height_at_spec_witness :
    height_at ⟨⟨0, 0, 10, 20⟩, 1/2, 3/4, 1/4, 1⟩ 10 0 = 3/4 ∧
    height_at ⟨⟨0, 0, 10, 20⟩, 1/2, 3/4, 1/4, 1⟩ 5 10 = (1/2 + 3/4 + 1/4 + 1) / 4 ∧
    height_at ⟨⟨0, 0, 0, 20⟩, 1/2, 3/4, 1/4, 1⟩ 7 3 = 1/2 := by
  have h1 := (height_at_spec ⟨⟨0, 0, 10, 20⟩, 1/2, 3/4, 1/4, 1⟩).2.2
      (by norm_num) (by norm_num)
  have h2 := (height_at_spec ⟨⟨0, 0, 0, 20⟩, 1/2, 3/4, 1/4, 1⟩).2.1
      (by norm_num) 7 3
  refine ⟨?_, ?_, h2⟩
  · have := h1.2.2.1
    norm_num at this ⊢
    exact this
  · have := h1.2.2.2.2.2
    norm_num at this ⊢
    exact this

/-- Helper: the arcsine correction factor is monotone in the clamped pen
position, for a travel angle in `(0, pi/2]`. -/
theorem servo_g_mono {td : ℝ} (h0 : 0 < radians td) (h2 : radians td ≤ Real.pi / 2)
    {p q : ℝ} (h : p ≤ q) :
    Real.arcsin (max 0 (min 1 p) * Real.sin (radians td)) / radians td ≤
      Real.arcsin (max 0 (min 1 q) * Real.sin (radians td)) / radians td := by
  have hsin : 0 ≤ Real.sin (radians td) := by
    apply Real.sin_nonneg_of_nonneg_of_le_pi h0.le
    nlinarith [Real.pi_pos]
  have hc : max 0 (min 1 p) ≤ max 0 (min 1 q) :=
    max_le_max le_rfl (min_le_min le_rfl h)
  have harc := Real.monotone_arcsin (mul_le_mul_of_nonneg_right hc hsin)
  exact div_le_div_of_nonneg_right harc h0.le |>.trans_eq rfl

/-- Helper: the arcsine-corrected servo value at pen position `1/10` for the
default calibration (`s_down = 90`, `s_up = 40`, travel 80 degrees) is at
least 86. -/
theorem servo_map_default_tenth : 86 ≤ servo_map 90 40 80 (1/10) := by
  have hpi0 := Real.pi_pos
  have hlo := Real.pi_gt_d2
  have hhi := Real.pi_lt_d2
  simp only [servo_map, radians]
  have hclamp : max (0:ℝ) (min 1 (1/10)) = 1/10 := by norm_num
  have hθ : (80:ℝ) * Real.pi / 180 = 4 * Real.pi / 9 := by ring
  rw [hclamp, hθ]
  have ha0 : (0:ℝ) < Real.pi / 25 := by positivity
  have ha1 : Real.pi / 25 ≤ 1 := by nlinarith
  have hcube := Real.sin_gt_sub_cube ha0 ha1
  have hpow : (Real.pi / 25) ^ 3 ≤ (0.126 : ℝ) ^ 3 := by
    apply pow_le_pow_left₀ ha0.le
    nlinarith
  have hs : (1:ℝ)/10 ≤ Real.sin (Real.pi / 25) := by nlinarith
  have harc1 : Real.arcsin (1/10) ≤ Real.pi / 25 := by
    have h1 := Real.monotone_arcsin hs
    rwa [Real.arcsin_sin (by nlinarith) (by nlinarith)] at h1
  have harg : (1:ℝ)/10 * Real.sin (4 * Real.pi / 9) ≤ 1/10 := by
    nlinarith [Real.sin_le_one (4 * Real.pi / 9)]
  have harc : Real.arcsin (1/10 * Real.sin (4 * Real.pi / 9)) ≤ Real.pi / 25 :=
    (Real.monotone_arcsin harg).trans harc1
  have hθ0 : (0:ℝ) < 4 * Real.pi / 9 := by positivity
  have hg : Real.arcsin (1/10 * Real.sin (4 * Real.pi / 9)) / (4 * Real.pi / 9) ≤ 9/100 := by
    have hq : (Real.pi / 25) / (4 * Real.pi / 9) = 9/100 := by
      field_simp
      ring
    calc Real.arcsin (1/10 * Real.sin (4 * Real.pi / 9)) / (4 * Real.pi / 9)
        ≤ (Real.pi / 25) / (4 * Real.pi / 9) := div_le_div_of_nonneg_right harc hθ0.le |>.trans_eq rfl
      _ = 9/100 := hq
  have h855 : (86:ℤ) = round (85.5 : ℝ) := by
    norm_num [round_eq]
  rw [h855]
  apply roundMonoAux
  push_cast
  nlinarith

/-- Claim C1: the servo mapping applies the arcsine correction
`g = asin(pos * sin(theta_max)) / theta_max` followed by
`round(s_down + g * (s_up - s_down))`; it maps `pos = 0` to exactly
`s_down`, `pos = 1` to exactly `s_up`, is monotone in `pos`, and differs
from the naive linear map at some input (default calibration). -/
theorem servo_map_spec (s_down s_up : ℤ) (td : ℝ)
    (h0 : 0 < radians td) (h2 : radians td ≤ Real.pi / 2) :
    servo_map s_down s_up td 0 = s_down ∧
    servo_map s_down s_up td 1 = s_up ∧
    (∀ p q : ℝ, p ≤ q →
      (s_up ≤ s_down → servo_map s_down s_up td q ≤ servo_map s_down s_up td p) ∧
      (s_down ≤ s_up → servo_map s_down s_up td p ≤ servo_map s_down s_up td q)) ∧
    (∃ pos : ℝ, 0 ≤ pos ∧ pos ≤ 1 ∧ servo_map 90 40 80 pos ≠ to_pwm 90 40 pos) := by
  refine ⟨?_, ?_, ?_, ?_⟩
  · simp [servo_map, Real.arcsin_zero]
  · have hc : max (0:ℝ) (min 1 1) = 1 := by norm_num
    simp only [servo_map, hc, one_mul]
    rw [Real.arcsin_sin (by linarith [Real.pi_pos]) h2, div_self (ne_of_gt h0)]
    simp
  · intro p q hpq
    have hg := servo_g_mono h0 h2 hpq
    constructor
    · intro hud
      simp only [servo_map]
      apply roundMonoAux
      have : ((s_up : ℝ) - s_down) ≤ 0 := by
        have h : (s_up : ℝ) ≤ s_down := by exact_mod_cast hud
        linarith
      nlinarith
    · intro hdu
      simp only [servo_map]
      apply roundMonoAux
      have : (0:ℝ) ≤ ((s_up : ℝ) - s_down) := by
        have h : (s_down : ℝ) ≤ s_up := by exact_mod_cast hdu
        linarith
      nlinarith
  · refine ⟨1/10, by norm_num, by norm_num, ?_⟩
    have hto : to_pwm 90 40 (1/10) = 85 := by
      simp only [to_pwm]
      norm_num [round_eq]
    rw [hto]
    have := servo_map_default_tenth
    omega

/-- Witness for C1 at the default calibration (down 90, up 40, 80 degrees). -/
theorem servo_map_spec_witness :
    servo_map 90 40 80 0 = 90 ∧ servo_map 90 40 80 1 = 40 ∧
    servo_map 90 40 80 1 ≤ servo_map 90 40 80 (1/2) ∧
    (∃ pos : ℝ, 0 ≤ pos ∧ pos ≤ 1 ∧ servo_map 90 40 80 pos ≠ to_pwm 90 40 pos) := by
  have h0 : 0 < radians 80 := by
    simp only [radians]
    positivity
  have h2 : radians 80 ≤ Real.pi / 2 := by
    simp only [radians]
    nlinarith [Real.pi_pos]
  obtain ⟨hz, ho, hmono, hne⟩ := servo_map_spec 90 40 80 h0 h2
  exact ⟨hz, ho, (hmono (1/2) 1 (by norm_num)).1 (by norm_num), hne⟩

/-! ## Smooth pen stepping (`GRBL.pen_set` and friends) -/

/-- Clamp a value into `[0,1]`, as `max(0.0, min(1.0, pos))`. -/
def clamp01 (x : ℚ) : ℚ := max 0 (min 1 x)

/-- Embedding of the ramp loop inside `GRBL.pen_set`: starting from `p`,
repeatedly step by `d * step` and record each intermediate position, stopping
as soon as the next position reaches or passes `target` in the direction of
motion `d` (which the caller fixes to `1` or `-1`). Returns the list of
intermediate positions issued to the servo. -/
def penRamp (target step d p : ℚ) : List ℚ :=
  if h : 0 < step ∧ (d = 1 ∨ d = -1) then
    let pn := p + d * step
    if (0 < d ∧ target ≤ pn) ∨ (d < 0 ∧ pn ≤ target) then []
    else pn :: penRamp target step d pn
  else []
termination_by (⌈|target - p| / step⌉).toNat
decreasing_by
  rename_i hbreak
  obtain ⟨hs, hd⟩ := h
  have key : |target - p| / step = |target - (p + d * step)| / step + 1 := by
    rcases hd with hd | hd
    · subst hd
      rw [not_or, not_and, not_and] at hbreak
      have hlt : p + 1 * step < target := lt_of_not_le (hbreak.1 one_pos)
      rw [abs_of_pos (by linarith), abs_of_pos (by linarith)]
      field_simp
      ring
    · subst hd
      rw [not_or, not_and, not_and] at hbreak
      have hlt : target < p + (-1) * step := lt_of_not_le (hbreak.2 (by norm_num))
      rw [abs_of_neg (by linarith), abs_of_neg (by linarith)]
      field_simp
      ring
  have hnn : (0:ℚ) ≤ |target - (p + d * step)| / step := by positivity
  have hceil : (0:ℤ) ≤ ⌈|target - (p + d * step)| / step⌉ := Int.ceil_nonneg hnn
  rw [key, Int.ceil_add_one]
  omega

/-- Embedding of `GRBL.pen_set`: clamp the requested position and the tracked
position into `[0,1]`; issue the target directly when no (positive) step is
given or the jump is within one step, otherwise ramp in uniform increments and
finish exactly on the target. Returns the list of issued servo positions and
the tracked pen position after the call. -/
def pen_set (pen_pos pos : ℚ) (step : Option ℚ) : List ℚ × ℚ :=
  let target := clamp01 pos
  let current := clamp01 pen_pos
  match step with
  | none => ([target], target)
  | some st =>
    if st ≤ 0 ∨ |target - current| ≤ st then ([target], target)
    else
      let d : ℚ := if current < target then 1 else -1
      let mids := penRamp target st d current
      let tracked := mids.getLast?.getD current
      if tracked = target then (mids, tracked) else (mids ++ [target], target)

/-- Embedding of `GRBL.pen_up`. -/
def pen_up (pen_pos : ℚ) (step : Option ℚ) : List ℚ × ℚ := pen_set pen_pos 1 step

/-- Embedding of `GRBL.pen_down`. -/
def pen_down (pen_pos : ℚ) (step : Option ℚ) : List ℚ × ℚ := pen_set pen_pos 0 step

/-- Embedding of `GRBL.pen_lift`: move relative to the last commanded
position, clamped into `[0,1]`. -/
def pen_lift (pen_pos delta : ℚ) (step : Option ℚ) : List ℚ × ℚ :=
  pen_set pen_pos (clamp01 (pen_pos + delta)) step

/-- The initial tracked pen position of a `GRBL` session (fully up). -/
def pen_pos_init : ℚ := 1

/-- Helper: one-step unfolding of the ramp loop. -/
theorem penRamp_eq (t s d p : ℚ) :
    penRamp t s d p =
      if 0 < s ∧ (d = 1 ∨ d = -1) then
        if (0 < d ∧ t ≤ p + d*s) ∨ (d < 0 ∧ p + d*s ≤ t) then []
        else (p + d*s) :: penRamp t s d (p + d*s)
      else [] := by
  rw [penRamp]
  split
  · rfl
  · rfl

/-- Helper: the `k`-th issued intermediate position is `p + (k+1) * d * step`,
so the ramp advances in uniform increments of size `step`. -/
theorem penRamp_get? (t s d p : ℚ) :
    ∀ k x, (penRamp t s d p).get? k = some x → x = p + (k + 1) * (d * s) := by
  refine penRamp.induct t s d
    (fun q => ∀ k x, (penRamp t s d q).get? k = some x → x = q + (k + 1) * (d * s))
    ?_ ?_ ?_ p
  · intro q h pn hbreak
    have hb : (0 < d ∧ t ≤ q + d * s) ∨ (d < 0 ∧ q + d * s ≤ t) := hbreak
    intro k x hx
    rw [penRamp_eq, if_pos h, if_pos hb] at hx
    simp at hx
  · intro q h pn hbreak ih
    have hb : ¬((0 < d ∧ t ≤ q + d * s) ∨ (d < 0 ∧ q + d * s ≤ t)) := hbreak
    have ih2 : ∀ k x, (penRamp t s d (q + d * s)).get? k = some x →
        x = (q + d * s) + (k + 1) * (d * s) := ih
    intro k x hx
    rw [penRamp_eq, if_pos h, if_neg hb] at hx
    cases k with
    | zero =>
      simp only [List.get?_cons_zero, Option.some_inj] at hx
      subst hx
      push_cast
      ring
    | succ k =>
      rw [List.get?_cons_succ] at hx
      rw [ih2 k x hx]
      push_cast
      ring
  · intro q h
    intro k x hx
    rw [penRamp_eq, if_neg h] at hx
    simp at hx

/-- Helper: for an upward ramp, every issued intermediate position lies
strictly between the start and the target. -/
theorem penRamp_mem_pos (t s : ℚ) (hs : 0 < s) (p : ℚ) :
    ∀ x ∈ penRamp t s 1 p, p < x ∧ x < t := by
  refine penRamp.induct t s 1 (fun q => ∀ x ∈ penRamp t s 1 q, q < x ∧ x < t) ?_ ?_ ?_ p
  · intro q h pn hbreak
    have hb : (0 < (1:ℚ) ∧ t ≤ q + 1 * s) ∨ ((1:ℚ) < 0 ∧ q + 1 * s ≤ t) := hbreak
    intro x hx
    rw [penRamp_eq, if_pos h, if_pos hb] at hx
    simp at hx
  · intro q h pn hbreak ih
    have hb : ¬((0 < (1:ℚ) ∧ t ≤ q + 1 * s) ∨ ((1:ℚ) < 0 ∧ q + 1 * s ≤ t)) := hbreak
    have ih2 : ∀ x ∈ penRamp t s 1 (q + 1 * s), (q + 1 * s) < x ∧ x < t := ih
    intro x hx
    rw [penRamp_eq, if_pos h, if_neg hb] at hx
    rw [not_or, not_and] at hb
    have hlt : q + 1 * s < t := lt_of_not_le (hb.1 one_pos)
    rcases List.mem_cons.1 hx with rfl | hx
    · constructor <;> linarith
    · have := ih2 x hx
      constructor <;> linarith
  · intro q h
    exact absurd ⟨hs, Or.inl rfl⟩ h

/-- Helper: for a downward ramp, every issued intermediate position lies
strictly between the target and the start. -/
theorem penRamp_mem_neg (t s : ℚ) (hs : 0 < s) (p : ℚ) :
    ∀ x ∈ penRamp t s (-1) p, t < x ∧ x < p := by
  refine penRamp.induct t s (-1) (fun q => ∀ x ∈ penRamp t s (-1) q, t < x ∧ x < q) ?_ ?_ ?_ p
  · intro q h pn hbreak
    have hb : (0 < (-1:ℚ) ∧ t ≤ q + (-1) * s) ∨ ((-1:ℚ) < 0 ∧ q + (-1) * s ≤ t) := hbreak
    intro x hx
    rw [penRamp_eq, if_pos h, if_pos hb] at hx
    simp at hx
  · intro q h pn hbreak ih
    have hb : ¬((0 < (-1:ℚ) ∧ t ≤ q + (-1) * s) ∨ ((-1:ℚ) < 0 ∧ q + (-1) * s ≤ t)) := hbreak
    have ih2 : ∀ x ∈ penRamp t s (-1) (q + (-1) * s), t < x ∧ x < (q + (-1) * s) := ih
    intro x hx
    rw [penRamp_eq, if_pos h, if_neg hb] at hx
    rw [not_or, not_and, not_and] at hb
    have hlt : t < q + (-1) * s := lt_of_not_le (hb.2 (by norm_num))
    rcases List.mem_cons.1 hx with rfl | hx
    · constructor <;> linarith
    · have := ih2 x hx
      constructor <;> linarith
  · intro q h
    exact absurd ⟨hs, Or.inr rfl⟩ h

/-- Helper: the upward ramp is nonempty when more than one step is needed. -/
theorem penRamp_pos_ne_nil (t s p : ℚ) (hs : 0 < s) (hlt : p + s < t) :
    penRamp t s 1 p ≠ [] := by
  rw [penRamp_eq, if_pos ⟨hs, Or.inl rfl⟩, if_neg]
  · exact List.cons_ne_nil _ _
  · push_neg
    norm_num
    linarith

/-- Helper: the downward ramp is nonempty when more than one step is needed. -/
theorem penRamp_neg_ne_nil (t s p : ℚ) (hs : 0 < s) (hlt : t < p - s) :
    penRamp t s (-1) p ≠ [] := by
  rw [penRamp_eq, if_pos ⟨hs, Or.inr rfl⟩, if_neg]
  · exact List.cons_ne_nil _ _
  · push_neg
    norm_num
    linarith

/-- Helper: unfolding of `pen_set` for an explicit step size. -/
theorem pen_set_some_eq (pen_pos pos st : ℚ) :
    pen_set pen_pos pos (some st) =
      if st ≤ 0 ∨ |clamp01 pos - clamp01 pen_pos| ≤ st then ([clamp01 pos], clamp01 pos)
      else
        let d : ℚ := if clamp01 pen_pos < clamp01 pos then 1 else -1
        let mids := penRamp (clamp01 pos) st d (clamp01 pen_pos)
        let tracked := mids.getLast?.getD (clamp01 pen_pos)
        if tracked = clamp01 pos then (mids, tracked)
        else (mids ++ [clamp01 pos], clamp01 pos) := rfl

/-- Helper: the upward ramp branch of `pen_set`. -/
theorem pen_set_ramp_pos (pen_pos pos st : ℚ) (hst : 0 < st)
    (hc : clamp01 pen_pos < clamp01 pos) (hgap : st < clamp01 pos - clamp01 pen_pos) :
    pen_set pen_pos pos (some st) =
      (penRamp (clamp01 pos) st 1 (clamp01 pen_pos) ++ [clamp01 pos], clamp01 pos) := by
  have hcond : ¬(st ≤ 0 ∨ |clamp01 pos - clamp01 pen_pos| ≤ st) := by
    rw [abs_of_pos (by linarith)]
    push_neg
    exact ⟨hst, by linarith⟩
  have hne : penRamp (clamp01 pos) st 1 (clamp01 pen_pos) ≠ [] :=
    penRamp_pos_ne_nil _ _ _ hst (by linarith)
  have htr : (penRamp (clamp01 pos) st 1 (clamp01 pen_pos)).getLast?.getD (clamp01 pen_pos)
      = (penRamp (clamp01 pos) st 1 (clamp01 pen_pos)).getLast hne := by
    rw [List.getLast?_eq_getLast_of_ne_nil hne, Option.getD_some]
  have hmem := List.getLast_mem hne
  have hlt := (penRamp_mem_pos (clamp01 pos) st hst (clamp01 pen_pos) _ hmem).2
  rw [pen_set_some_eq, if_neg hcond]
  simp only [if_pos hc]
  rw [htr, if_neg (ne_of_lt hlt)]

/-- Helper: the downward ramp branch of `pen_set`. -/
theorem pen_set_ramp_neg (pen_pos pos st : ℚ) (hst : 0 < st)
    (hc : clamp01 pos < clamp01 pen_pos) (hgap : st < clamp01 pen_pos - clamp01 pos) :
    pen_set pen_pos pos (some st) =
      (penRamp (clamp01 pos) st (-1) (clamp01 pen_pos) ++ [clamp01 pos], clamp01 pos) := by
  have hcond : ¬(st ≤ 0 ∨ |clamp01 pos - clamp01 pen_pos| ≤ st) := by
    rw [abs_of_neg (by linarith)]
    push_neg
    exact ⟨hst, by linarith⟩
  have hne : penRamp (clamp01 pos) st (-1) (clamp01 pen_pos) ≠ [] :=
    penRamp_neg_ne_nil _ _ _ hst (by linarith)
  have htr : (penRamp (clamp01 pos) st (-1) (clamp01 pen_pos)).getLast?.getD (clamp01 pen_pos)
      = (penRamp (clamp01 pos) st (-1) (clamp01 pen_pos)).getLast hne := by
    rw [List.getLast?_eq_getLast_of_ne_nil hne, Option.getD_some]
  have hmem := List.getLast_mem hne
  have hgt := (penRamp_mem_neg (clamp01 pos) st hst (clamp01 pen_pos) _ hmem).1
  rw [pen_set_some_eq, if_neg hcond]
  simp only [if_neg (not_lt_of_gt hc)]
  rw [htr, if_neg (ne_of_gt hgt)]

/-- Helper: the tracked pen position after any `pen_set` call is the clamped
requested position. -/
theorem pen_set_tracked (pen_pos pos : ℚ) (step : Option ℚ) :
    (pen_set pen_pos pos step).2 = clamp01 pos := by
  cases step with
  | none => rfl
  | some st =>
    rw [pen_set_some_eq]
    split
    · rfl
    · split
      · dsimp only
        split
        · rename_i h
          exact h
        · rfl
      · dsimp only
        split
        · rename_i h
          exact h
        · rfl

/-- Claim C3: `pen_set` issues exactly one servo command at the (clamped)
target when no positive step is given or the jump is within one step;
otherwise it issues uniform increments of size `step` strictly between the
current position and the target followed by a final command exactly at the
target, never commanding past the target; the tracked position afterwards
always equals the target. -/
theorem pen_set_spec (pen_pos pos : ℚ) (step : Option ℚ) :
    (pen_set pen_pos pos step).2 = clamp01 pos ∧
    ((step = none ∨ ∃ s, step = some s ∧ (s ≤ 0 ∨ |clamp01 pos - clamp01 pen_pos| ≤ s)) →
      (pen_set pen_pos pos step).1 = [clamp01 pos]) ∧
    (∀ s, step = some s → 0 < s → s < |clamp01 pos - clamp01 pen_pos| →
      ∃ mids : List ℚ, mids ≠ [] ∧
        (pen_set pen_pos pos step).1 = mids ++ [clamp01 pos] ∧
        (∀ k x, mids.get? k = some x →
          x = clamp01 pen_pos +
              ((k : ℚ) + 1) * ((if clamp01 pen_pos < clamp01 pos then 1 else -1) * s)) ∧
        (∀ x ∈ mids, min (clamp01 pen_pos) (clamp01 pos) < x ∧
            x < max (clamp01 pen_pos) (clamp01 pos))) := by
  cases step with
  | none =>
    refine ⟨rfl, fun _ => rfl, ?_⟩
    intro s hs
    exact absurd hs (by simp)
  | some st =>
    by_cases hcond : st ≤ 0 ∨ |clamp01 pos - clamp01 pen_pos| ≤ st
    · rw [pen_set_some_eq, if_pos hcond]
      refine ⟨rfl, fun _ => rfl, ?_⟩
      intro s hs hpos hgap
      obtain rfl : st = s := by injection hs
      rcases hcond with h | h
      · linarith
      · linarith
    · push_neg at hcond
      obtain ⟨hst0, hgap0⟩ := hcond
      have hst : 0 < st := hst0
      have hgap : st < |clamp01 pos - clamp01 pen_pos| := hgap0
      rcases lt_trichotomy (clamp01 pen_pos) (clamp01 pos) with hc | hc | hc
      · have habs : |clamp01 pos - clamp01 pen_pos| = clamp01 pos - clamp01 pen_pos :=
          abs_of_pos (by linarith)
        have heq := pen_set_ramp_pos pen_pos pos st hst hc (by rw [habs] at hgap; linarith)
        refine ⟨by rw [heq], ?_, ?_⟩
        · rintro (h | ⟨s, hs, hcase⟩)
          · exact absurd h (by simp)
          · obtain rfl : st = s := by injection hs
            rcases hcase with h | h
            · linarith
            · linarith
        · intro s hs _ _
          obtain rfl : st = s := by injection hs
          refine ⟨penRamp (clamp01 pos) st 1 (clamp01 pen_pos),
            penRamp_pos_ne_nil _ _ _ hst (by rw [habs] at hgap; linarith), by rw [heq], ?_, ?_⟩
          · intro k x hx
            have := penRamp_get? (clamp01 pos) st 1 (clamp01 pen_pos) k x hx
            rw [this, if_pos hc]
          · intro x hx
            have hb := penRamp_mem_pos (clamp01 pos) st hst (clamp01 pen_pos) x hx
            rw [min_eq_left (le_of_lt hc), max_eq_right (le_of_lt hc)]
            exact hb
      · exfalso
        rw [hc] at hgap
        simp at hgap
        linarith
      · have habs : |clamp01 pos - clamp01 pen_pos| = clamp01 pen_pos - clamp01 pos :=
          abs_of_neg (by linarith) |>.trans (by ring)
        have heq := pen_set_ramp_neg pen_pos pos st hst hc (by rw [habs] at hgap; linarith)
        refine ⟨by rw [heq], ?_, ?_⟩
        · rintro (h | ⟨s, hs, hcase⟩)
          · exact absurd h (by simp)
          · obtain rfl : st = s := by injection hs
            rcases hcase with h | h
            · linarith
            · linarith
        · intro s hs _ _
          obtain rfl : st = s := by injection hs
          refine ⟨penRamp (clamp01 pos) st (-1) (clamp01 pen_pos),
            penRamp_neg_ne_nil _ _ _ hst (by rw [habs] at hgap; linarith), by rw [heq], ?_, ?_⟩
          · intro k x hx
            have := penRamp_get? (clamp01 pos) st (-1) (clamp01 pen_pos) k x hx
            rw [this, if_neg (not_lt_of_gt hc)]
          · intro x hx
            have hb := penRamp_mem_neg (clamp01 pos) st hst (clamp01 pen_pos) x hx
            rw [min_eq_right (le_of_lt hc), max_eq_left (le_of_lt hc)]
            exact ⟨hb.1, hb.2⟩

/-- Witness for C3: ramping from 0 to 1 with step 1/10. -/
theorem pen_set_spec_witness :
    (0:ℚ) < 1/10 ∧ (1:ℚ)/10 < |clamp01 1 - clamp01 0| ∧
    (pen_set 0 1 (some (1/10))).2 = clamp01 1 ∧
    (∃ mids : List ℚ, mids ≠ [] ∧
      (pen_set 0 1 (some (1/10))).1 = mids ++ [clamp01 1] ∧
      (∀ k x, mids.get? k = some x →
        x = clamp01 0 + ((k : ℚ) + 1) * ((if clamp01 0 < clamp01 1 then 1 else -1) * (1/10))) ∧
      (∀ x ∈ mids, min (clamp01 0) (clamp01 1) < x ∧ x < max (clamp01 0) (clamp01 1))) := by
  have h := pen_set_spec 0 1 (some (1/10))
  have h1 : (0:ℚ) < 1/10 := by norm_num
  have h2 : (1:ℚ)/10 < |clamp01 1 - clamp01 0| := by norm_num [clamp01]
  exact ⟨h1, h2, h.1, h.2.2 (1/10) rfl h1 h2⟩

/-- Helper: `clamp01` stays within `[0,1]`. -/
theorem clamp01_bounds (x : ℚ) : 0 ≤ clamp01 x ∧ clamp01 x ≤ 1 :=
  ⟨le_max_left _ _, max_le (by norm_num) (min_le_left _ _)⟩

/-- Helper: every servo position issued by `pen_set` lies in `[0,1]`. -/
theorem pen_set_issued_bounds (pen_pos pos : ℚ) (step : Option ℚ) :
    ∀ x ∈ (pen_set pen_pos pos step).1, 0 ≤ x ∧ x ≤ 1 := by
  have hc0 := clamp01_bounds pen_pos
  have ht0 := clamp01_bounds pos
  cases step with
  | none =>
    intro x hx
    rcases List.mem_singleton.1 hx with rfl
    exact ht0
  | some st =>
    by_cases hcond : st ≤ 0 ∨ |clamp01 pos - clamp01 pen_pos| ≤ st
    · rw [pen_set_some_eq, if_pos hcond]
      intro x hx
      rcases List.mem_singleton.1 hx with rfl
      exact ht0
    · push_neg at hcond
      obtain ⟨hst, hgap⟩ := hcond
      rcases lt_trichotomy (clamp01 pen_pos) (clamp01 pos) with hc | hc | hc
      · have habs : |clamp01 pos - clamp01 pen_pos| = clamp01 pos - clamp01 pen_pos :=
          abs_of_pos (by linarith)
        rw [pen_set_ramp_pos pen_pos pos st hst hc (by rw [habs] at hgap; linarith)]
        intro x hx
        rcases List.mem_append.1 hx with hx | hx
        · have hb := penRamp_mem_pos (clamp01 pos) st hst (clamp01 pen_pos) x hx
          constructor <;> linarith [hc0.1, ht0.2]
        · rcases List.mem_singleton.1 hx with rfl
          exact ht0
      · exfalso
        rw [hc] at hgap
        simp at hgap
        linarith
      · have habs : |clamp01 pos - clamp01 pen_pos| = clamp01 pen_pos - clamp01 pos :=
          abs_of_neg (by linarith) |>.trans (by ring)
        rw [pen_set_ramp_neg pen_pos pos st hst hc (by rw [habs] at hgap; linarith)]
        intro x hx
        rcases List.mem_append.1 hx with hx | hx
        · have hb := penRamp_mem_neg (clamp01 pos) st hst (clamp01 pen_pos) x hx
          constructor <;> linarith [ht0.1, hc0.2]
        · rcases List.mem_singleton.1 hx with rfl
          exact ht0

/-- Claim C9: the tracked pen position starts at 1 and stays in `[0,1]` after
every `pen_set`, `pen_up`, `pen_down` and `pen_lift` call for arbitrary
arguments; out-of-range targets are clamped rather than rejected; every
issued servo position lies in `[0,1]`; and the servo mapping clamps its
input into `[0,1]` before applying the arcsine correction. -/
theorem pen_state_spec :
    pen_pos_init = 1 ∧ 0 ≤ pen_pos_init ∧ pen_pos_init ≤ 1 ∧
    (∀ pen_pos pos step, (pen_set pen_pos pos step).2 = clamp01 pos ∧
        0 ≤ (pen_set pen_pos pos step).2 ∧ (pen_set pen_pos pos step).2 ≤ 1 ∧
        ∀ x ∈ (pen_set pen_pos pos step).1, 0 ≤ x ∧ x ≤ 1) ∧
    (∀ pen_pos step, 0 ≤ (pen_up pen_pos step).2 ∧ (pen_up pen_pos step).2 ≤ 1) ∧
    (∀ pen_pos step, 0 ≤ (pen_down pen_pos step).2 ∧ (pen_down pen_pos step).2 ≤ 1) ∧
    (∀ pen_pos delta step,
        0 ≤ (pen_lift pen_pos delta step).2 ∧ (pen_lift pen_pos delta step).2 ≤ 1) ∧
    (∀ sd su td q, servo_map sd su td q = servo_map sd su td (max 0 (min 1 q))) := by
  have hset : ∀ pen_pos pos step, (pen_set pen_pos pos step).2 = clamp01 pos :=
    pen_set_tracked
  refine ⟨rfl, by norm_num [pen_pos_init], by norm_num [pen_pos_init], ?_, ?_, ?_, ?_, ?_⟩
  · intro pen_pos pos step
    refine ⟨hset _ _ _, ?_, ?_, pen_set_issued_bounds _ _ _⟩
    · rw [hset]
      exact (clamp01_bounds pos).1
    · rw [hset]
      exact (clamp01_bounds pos).2
  · intro pen_pos step
    rw [pen_up, hset]
    exact clamp01_bounds 1
  · intro pen_pos step
    rw [pen_down, hset]
    exact clamp01_bounds 0
  · intro pen_pos delta step
    rw [pen_lift, hset]
    exact clamp01_bounds _
  · intro sd su td q
    have hid : max (0:ℝ) (min 1 (max 0 (min 1 q))) = max 0 (min 1 q) := by
      rw [min_eq_right (max_le (by norm_num) (min_le_left _ _)), ← max_assoc, max_self]
    simp only [servo_map, hid]

/-- Witness for C9: an out-of-range request is clamped, and the single
issued position is in range. -/
theorem pen_state_spec_witness :
    (1:ℚ) ∈ (pen_set 2 (3/2) none).1 ∧ 0 ≤ (1:ℚ) ∧ (1:ℚ) ≤ 1 ∧
    (pen_set 2 (3/2) none).2 = clamp01 (3/2) := by
  obtain ⟨_, _, _, hset, _⟩ := pen_state_spec
  have hm : (1:ℚ) ∈ (pen_set 2 (3/2) none).1 := by
    have : (pen_set 2 (3/2) none).1 = [clamp01 (3/2)] := rfl
    rw [this]
    norm_num [clamp01]
  have h4 := (hset 2 (3/2) none).2.2.2 1 hm
  exact ⟨hm, h4.1, h4.2, (hset 2 (3/2) none).1⟩

/-! ## Geometry model (`pattern.py` / `penplotter/geometry.py`) -/

/-- Embedding of `Polyline`: an ordered point list with pen metadata and a
reversal flag that reinterprets direction without mutating the list. -/
structure Polyline where
  pts : List Pt
  pen_pressure : ℚ := -1/10
  feed_draw : Option ℤ := none
  pen_id : ℤ := 0
  _rev : Bool := false
  deriving DecidableEq

/-- Embedding of `Polyline.endpoints`: `((0,0),(0,0))` for an empty point
list, else `(first, last)`, swapped when the reversal flag is set. -/
def Polyline.endpoints (pl : Polyline) : Pt × Pt :=
  match h : pl.pts with
  | [] => ((0, 0), (0, 0))
  | p :: rest =>
    if pl._rev then ((p :: rest).getLast (List.cons_ne_nil p rest), p)
    else (p, (p :: rest).getLast (List.cons_ne_nil p rest))

/-- Claim C10: `Polyline.endpoints` is total: an empty polyline yields
`((0,0),(0,0))` regardless of the reversal flag, and a nonempty polyline
yields `(first, last)`, or `(last, first)` when reversed. -/
theorem endpoints_spec :
    (∀ (press : ℚ) (feed : Option ℤ) (pen : ℤ) (rev : Bool),
      Polyline.endpoints ⟨[], press, feed, pen, rev⟩ = ((0, 0), (0, 0))) ∧
    (∀ (p : Pt) (l : List Pt) (press : ℚ) (feed : Option ℤ) (pen : ℤ),
      Polyline.endpoints ⟨p :: l, press, feed, pen, false⟩ =
        (p, (p :: l).getLast (List.cons_ne_nil p l)) ∧
      Polyline.endpoints ⟨p :: l, press, feed, pen, true⟩ =
        ((p :: l).getLast (List.cons_ne_nil p l), p)) := by
  constructor
  · intro press feed pen rev
    rfl
  · intro p l press feed pen
    constructor
    · simp [Polyline.endpoints]
    · simp [Polyline.endpoints]

/-! ## Endpoint chain merging (`Pattern.combine_endpoints`, `pattern.py`) -/

/-- A working chain inside `combine_endpoints`: the tuple
`(pts, pen_pressure, feed_draw, pen_id)` built from each polyline. -/
structure CChain where
  pts : List Pt
  press : ℚ
  feed : Option ℤ
  pen : ℤ
  deriving DecidableEq

/-- Embedding of the `almost` predicate: `hypot(ax-bx, ay-by) <= tol`,
expressed without the square root as `0 <= tol` and squared comparison. -/
def almost (tol : ℚ) (a b : Pt) : Bool :=
  decide (0 ≤ tol) && decide ((a.1 - b.1)^2 + (a.2 - b.2)^2 ≤ tol^2)

/-- The four endpoint match cases of `combine_endpoints`, in source order:
chain-tail to other-head, tail-to-tail, head-to-tail, head-to-head; each
splice drops the duplicated coincident point. Returns `none` when no case
matches (or a list is empty, which the caller rules out). -/
def tryMerge (tol : ℚ) (chain pj : List Pt) : Option (List Pt) :=
  match chain, pj with
  | c0 :: cr, q0 :: qr =>
    let cl := (c0 :: cr).getLast (List.cons_ne_nil c0 cr)
    let ql := (q0 :: qr).getLast (List.cons_ne_nil q0 qr)
    if almost tol cl q0 then some ((c0 :: cr) ++ (q0 :: qr).tail)
    else if almost tol cl ql then some ((c0 :: cr) ++ (q0 :: qr).dropLast.reverse)
    else if almost tol c0 ql then some ((q0 :: qr).dropLast ++ (c0 :: cr))
    else if almost tol c0 q0 then some ((q0 :: qr).tail.reverse ++ (c0 :: cr))
    else none
  | _, _ => none

/-- One pass of the inner `for j` scan of `combine_endpoints`: walk the slot
list (`none` marks a used chain), splicing every matching unused chain of the
same pen onto the current chain and counting the merges. -/
def scanPass (tol : ℚ) (pen : ℤ) :
    List Pt → List (Option CChain) → List Pt × List (Option CChain) × ℕ
  | chain, [] => (chain, [], 0)
  | chain, none :: rest =>
    let r := scanPass tol pen chain rest
    (r.1, none :: r.2.1, r.2.2)
  | chain, some cj :: rest =>
    if cj.pts = [] ∨ cj.pen ≠ pen then
      let r := scanPass tol pen chain rest
      (r.1, some cj :: r.2.1, r.2.2)
    else
      match tryMerge tol chain cj.pts with
      | some chain2 =>
        let r := scanPass tol pen chain2 rest
        (r.1, none :: r.2.1, r.2.2 + 1)
      | none =>
        let r := scanPass tol pen chain rest
        (r.1, some cj :: r.2.1, r.2.2)

/-- The `while changed` loop of `combine_endpoints`: rescan until a pass
makes no merge. The fuel (number of unused chains plus one) bounds the
iteration count, since every merging pass uses up at least one chain. -/
def chainLoop (tol : ℚ) (pen : ℤ) :
    ℕ → List Pt → List (Option CChain) → List Pt × List (Option CChain) × ℕ
  | 0, chain, slots => (chain, slots, 0)
  | fuel+1, chain, slots =>
    let r := scanPass tol pen chain slots
    if r.2.2 = 0 then (r.1, r.2.1, 0)
    else
      let r2 := chainLoop tol pen fuel r.1 r.2.1
      (r2.1, r2.2.1, r.2.2 + r2.2.2)

/-- Number of unused slots. -/
def countSome : List (Option CChain) → ℕ
  | [] => 0
  | none :: r => countSome r
  | some _ :: r => countSome r + 1

/-- The outer `for i` loop of `combine_endpoints`: seed a chain from each
unused slot, grow it to fixpoint with `chainLoop`, and collect the merged
chains and the total merge count. The fuel (slot count plus one) bounds the
recursion, which consumes one slot per step. -/
def combineAll (tol : ℚ) : ℕ → List (Option CChain) → List CChain × ℕ
  | 0, _ => ([], 0)
  | _+1, [] => ([], 0)
  | fuel+1, none :: rest => combineAll tol fuel rest
  | fuel+1, some c :: rest =>
    if c.pts = [] then combineAll tol fuel rest
    else
      let r := chainLoop tol c.pen (countSome rest + 1) c.pts rest
      let r2 := combineAll tol fuel r.2.1
      (⟨r.1, c.press, c.feed, c.pen⟩ :: r2.1, r.2.2 + r2.2)

/-- Embedding of `Pattern.combine_endpoints` (`pattern.py`): build chains
from the polylines (applying the reversal flag, dropping empty ones), merge
by endpoint proximity per pen, and report the merged items, the merge count
and the pen-lift counts before and after (`max(0, n-1)` each). -/
def combine_endpoints (tol : ℚ) (items : List Polyline) : List Polyline × ℕ × ℕ × ℕ :=
  let chains := items.filterMap (fun it =>
    let pts := if it._rev then it.pts.reverse else it.pts
    if pts = [] then none
    else some (⟨pts, it.pen_pressure, it.feed_draw, it.pen_id⟩ : CChain))
  let r := combineAll tol (chains.length + 1) (chains.map some)
  let newItems := r.1.map (fun c => Polyline.mk c.pts c.press c.feed c.pen false)
  (newItems, r.2, items.length - 1, newItems.length - 1)

/-- Claim C4: `combine_endpoints` merges strokes of the same pen whose
endpoints coincide within the tolerance, by any of the four endpoint
adjacency cases, dropping the duplicated point at each splice; for a pattern
of two 2-point strokes sharing one exact endpoint with tolerance `0.05`, the
result is one 3-point stroke with merge count 1 and the pen-lift count
drops from 1 to 0. Strokes of different pens are not merged. -/
theorem combine_endpoints_spec :
    combine_endpoints (1/20)
        [⟨[(0,0),(1,0)], -1/10, none, 0, false⟩, ⟨[(1,0),(2,0)], -1/10, none, 0, false⟩] =
      ([⟨[(0,0),(1,0),(2,0)], -1/10, none, 0, false⟩], 1, 1, 0) ∧
    (combine_endpoints (1/20)
        [⟨[(0,0),(1,0)], -1/10, none, 0, false⟩, ⟨[(2,0),(1,0)], -1/10, none, 0, false⟩]).1 =
      [⟨[(0,0),(1,0),(2,0)], -1/10, none, 0, false⟩] ∧
    (combine_endpoints (1/20)
        [⟨[(1,0),(2,0)], -1/10, none, 0, false⟩, ⟨[(0,0),(1,0)], -1/10, none, 0, false⟩]).1 =
      [⟨[(0,0),(1,0),(2,0)], -1/10, none, 0, false⟩] ∧
    (combine_endpoints (1/20)
        [⟨[(1,0),(2,0)], -1/10, none, 0, false⟩, ⟨[(1,0),(0,0)], -1/10, none, 0, false⟩]).1 =
      [⟨[(0,0),(1,0),(2,0)], -1/10, none, 0, false⟩] ∧
    combine_endpoints (1/20)
        [⟨[(0,0),(1,0)], -1/10, none, 0, false⟩, ⟨[(1,0),(2,0)], -1/10, none, 1, false⟩] =
      ([⟨[(0,0),(1,0)], -1/10, none, 0, false⟩, ⟨[(1,0),(2,0)], -1/10, none, 1, false⟩],
        0, 1, 1) := by
  refine ⟨?_, ?_, ?_, ?_, ?_⟩ <;>
    norm_num +decide [combine_endpoints, combineAll, chainLoop, scanPass, tryMerge, almost,
      countSome, List.filterMap, List.getLast]

/-! ## Nearest-neighbour reordering (`Pattern.optimize_order_nn`) -/

/-- Euclidean distance (`math.hypot`) between two points. -/
noncomputable def distR (a b : Pt) : ℝ :=
  Real.sqrt (((a.1 - b.1 : ℚ) : ℝ)^2 + ((a.2 - b.2 : ℚ) : ℝ)^2)

/-- The candidate cost of visiting a stroke next: distance from the current
position to its head or tail, whichever is not larger, paired with the flag
that is set when the tail is strictly nearer. -/
noncomputable def nnCost (cur : Pt) (it : Polyline) : ℝ × Bool :=
  let d_fwd := distR cur it.endpoints.1
  let d_rev := distR cur it.endpoints.2
  if d_fwd ≤ d_rev then (d_fwd, false) else (d_rev, true)

/-- The `for i, it in enumerate(remaining)` selection loop of
`optimize_order_nn`: index, cost and orientation of the best candidate,
updating only on strictly smaller cost so that the first-encountered index
wins ties. -/
noncomputable def nnBest (cur : Pt) : List Polyline → Option (ℕ × ℝ × Bool)
  | [] => none
  | it :: rest =>
    let cb := nnCost cur it
    match nnBest cur rest with
    | none => some (0, cb)
    | some (j, c, g) => if c < cb.1 then some (j + 1, c, g) else some (0, cb)

/-- `it._rev = bool(best_cfg)`. -/
def setRev (it : Polyline) (g : Bool) : Polyline := { it with _rev := g }

/-- The `while remaining` loop of `optimize_order_nn`; the fuel equals the
number of remaining strokes, of which exactly one is consumed per step. -/
noncomputable def optimizeAux : ℕ → Pt → List Polyline → List Polyline
  | 0, _, _ => []
  | fuel+1, cur, l =>
    match nnBest cur l with
    | none => []
    | some (j, _, g) =>
      match l.get? j with
      | none => []
      | some it0 =>
        let it := setRev it0 g
        it :: optimizeAux fuel it.endpoints.2 (l.eraseIdx j)

/-- Embedding of `Pattern.optimize_order_nn`: the greedy nearest-neighbour
reordering of the item list starting from `start`. -/
noncomputable def optimize_order_nn (start : Pt) (items : List Polyline) : List Polyline :=
  optimizeAux items.length start items

/-- Embedding of `Renderer._travel_estimate`: total travel, i.e. the sum of
distances from the current position to each successive stroke start, the
current position advancing to the stroke end. -/
noncomputable def travel_estimate (start : Pt) : List Polyline → ℝ
  | [] => 0
  | it :: rest => distR start it.endpoints.1 + travel_estimate it.endpoints.2 rest

/-- Helper: `nnBest` returns `none` exactly on an empty list. -/
theorem nnBest_none_iff (cur : Pt) (l : List Polyline) :
    nnBest cur l = none ↔ l = [] := by
  cases l with
  | nil => simp [nnBest]
  | cons it rest =>
    simp only [nnBest]
    constructor
    · intro h
      cases hrest : nnBest cur rest with
      | none => rw [hrest] at h; simp at h
      | some v =>
        rw [hrest] at h
        obtain ⟨j, c, g⟩ := v
        by_cases hc : c < (nnCost cur it).1 <;> simp [hc] at h
    · intro h
      exact absurd h (List.cons_ne_nil it rest)

/-- Helper: characterization of the greedy selection: the returned index is
in range, carries its own cost and orientation, has minimal cost among all
candidates, and is the first index attaining that cost. -/
theorem nnBest_spec (cur : Pt) (l : List Polyline) (j : ℕ) (c : ℝ) (g : Bool)
    (hb : nnBest cur l = some (j, c, g)) :
    ∃ hj : j < l.length,
      c = (nnCost cur (l.get ⟨j, hj⟩)).1 ∧ g = (nnCost cur (l.get ⟨j, hj⟩)).2 ∧
      (∀ i (hi : i < l.length), c ≤ (nnCost cur (l.get ⟨i, hi⟩)).1) ∧
      (∀ i, i < j → ∀ hi : i < l.length, c < (nnCost cur (l.get ⟨i, hi⟩)).1) := by
  induction l generalizing cur j c g with
  | nil => simp [nnBest] at hb
  | cons it rest ih =>
    rw [nnBest] at hb
    split at hb
    · rename_i hrest
      simp only [Option.some_inj, Prod.mk.injEq] at hb
      obtain ⟨hj0, hcb⟩ := hb
      subst hj0
      have hc : c = (nnCost cur it).1 := by rw [hcb]
      have hgg : g = (nnCost cur it).2 := by rw [hcb]
      have hrest_nil : rest = [] := (nnBest_none_iff cur rest).1 hrest
      subst hrest_nil
      refine ⟨by simp, by simpa using hc, by simpa using hgg, ?_, ?_⟩
      · intro i hi
        cases i with
        | zero => simpa using le_of_eq hc
        | succ i => exact absurd hi (by simp)
      · intro i hij hi
        omega
    · rename_i j' c' g' hrest
      obtain ⟨hj', hc', hg', hmin', hfirst'⟩ := ih cur j' c' g' hrest
      split at hb
      · rename_i hlt
        simp only [Option.some_inj, Prod.mk.injEq] at hb
        obtain ⟨hj0, hc0, hg0⟩ := hb
        subst hj0
        subst hc0
        subst hg0
        refine ⟨by simpa using Nat.succ_lt_succ hj', by simpa using hc', by simpa using hg',
          ?_, ?_⟩
        · intro i hi
          cases i with
          | zero => simpa using le_of_lt hlt
          | succ i => simpa using hmin' i (Nat.lt_of_succ_lt_succ hi)
        · intro i hij hi
          cases i with
          | zero => simpa using hlt
          | succ i =>
            simpa using hfirst' i (Nat.lt_of_succ_lt_succ hij) (Nat.lt_of_succ_lt_succ hi)
      · rename_i hlt
        push_neg at hlt
        simp only [Option.some_inj, Prod.mk.injEq] at hb
        obtain ⟨hj0, hcb⟩ := hb
        subst hj0
        have hc : c = (nnCost cur it).1 := by rw [hcb]
        have hgg : g = (nnCost cur it).2 := by rw [hcb]
        refine ⟨by simp, by simpa using hc, by simpa using hgg, ?_, ?_⟩
        · intro i hi
          cases i with
          | zero => simpa using le_of_eq hc
          | succ i =>
            have := hmin' i (Nat.lt_of_succ_lt_succ hi)
            rw [hc]
            simpa using le_trans hlt this
        · intro i hij hi
          omega

/-- Helper: one step of the greedy loop, expressed on `optimize_order_nn`
itself: the selected stroke, with its reversal flag set, is emitted and the
loop continues from its far endpoint on the remaining strokes. -/
theorem optimize_order_nn_step (cur : Pt) (l : List Polyline) (j : ℕ) (c : ℝ) (g : Bool)
    (it0 : Polyline) (hb : nnBest cur l = some (j, c, g)) (hg : l.get? j = some it0) :
    optimize_order_nn cur l =
      setRev it0 g :: optimize_order_nn (setRev it0 g).endpoints.2 (l.eraseIdx j) := by
  have hj : j < l.length := List.get?_eq_some.1 hg |>.1
  cases l with
  | nil => simp [nnBest] at hb
  | cons a rest =>
    have hlen : (List.eraseIdx (a :: rest) j).length = rest.length := by
      have := List.length_eraseIdx_add_one hj
      simpa using this
    unfold optimize_order_nn
    rw [hlen]
    conv_lhs => rw [show (a :: rest).length = rest.length + 1 from by simp]
    rw [optimizeAux, hb]
    simp only [hg]

/-- Fixture: three single-point strokes on the x axis. -/
def strokeA : Polyline := ⟨[(-3/2, 0)], -1/10, none, 0, false⟩

/-- Fixture stroke at `(1, 0)`. -/
def strokeB : Polyline := ⟨[(1, 0)], -1/10, none, 0, false⟩

/-- Fixture stroke at `(5/2, 0)`. -/
def strokeC : Polyline := ⟨[(5/2, 0)], -1/10, none, 0, false⟩

/-- Helper: distance between two points on the x axis. -/
theorem distR_axis (a b : ℚ) : distR (a, 0) (b, 0) = |(a : ℝ) - (b : ℝ)| := by
  unfold distR
  push_cast
  norm_num
  exact Real.sqrt_sq_eq_abs _

/-- Helper: `nnCost` at a single-point stroke: head and tail coincide, so the
cost is the distance to that point and the flag stays unset. -/
theorem nnCost_single (c p : Pt) (press : ℚ) (feed : Option ℤ) (pen : ℤ) :
    nnCost c ⟨[p], press, feed, pen, false⟩ = (distR c p, false) := by
  unfold nnCost
  have he : (Polyline.mk [p] press feed pen false).endpoints = (p, p) := rfl
  rw [he]
  simp

/-- Helper: concrete distances of the fixture, stated in the simp-normal
spelling of the points. -/
theorem distFix1 : distR 0 (-(3/2), 0) = 3/2 := by
  rw [show (0 : Pt) = ((0:ℚ), (0:ℚ)) from rfl, distR_axis,
    show ((0:ℚ):ℝ) - ((-(3/2):ℚ):ℝ) = 3/2 by push_cast; norm_num,
    abs_of_nonneg (by norm_num : (0:ℝ) ≤ 3/2)]

/-- Helper: concrete distance. -/
theorem distFix2 : distR 0 (1, 0) = 1 := by
  rw [show (0 : Pt) = ((0:ℚ), (0:ℚ)) from rfl, distR_axis,
    show ((0:ℚ):ℝ) - ((1:ℚ):ℝ) = -1 by push_cast; norm_num]
  norm_num

/-- Helper: concrete distance. -/
theorem distFix3 : distR 0 (5/2, 0) = 5/2 := by
  rw [show (0 : Pt) = ((0:ℚ), (0:ℚ)) from rfl, distR_axis,
    show ((0:ℚ):ℝ) - ((5/2:ℚ):ℝ) = -(5/2) by push_cast; norm_num]
  norm_num

/-- Helper: concrete distance. -/
theorem distFix4 : distR (1, 0) (-(3/2), 0) = 5/2 := by
  rw [distR_axis, show ((1:ℚ):ℝ) - ((-(3/2):ℚ):ℝ) = 5/2 by push_cast; norm_num,
    abs_of_nonneg (by norm_num : (0:ℝ) ≤ 5/2)]

/-- Helper: concrete distance. -/
theorem distFix5 : distR (1, 0) (5/2, 0) = 3/2 := by
  rw [distR_axis, show ((1:ℚ):ℝ) - ((5/2:ℚ):ℝ) = -(3/2) by push_cast; norm_num]
  norm_num

/-- Helper: concrete distance. -/
theorem distFix6 : distR (5/2, 0) (-(3/2), 0) = 4 := by
  rw [distR_axis, show ((5/2:ℚ):ℝ) - ((-(3/2):ℚ):ℝ) = 4 by push_cast; norm_num,
    abs_of_nonneg (by norm_num : (0:ℝ) ≤ 4)]

/-- Helper: concrete distance. -/
theorem distFix7 : distR (-(3/2), 0) (1, 0) = 5/2 := by
  rw [distR_axis, show ((-(3/2):ℚ):ℝ) - ((1:ℚ):ℝ) = -(5/2) by push_cast; norm_num]
  norm_num

/-- Helper: greedy selection on the fixture from the origin picks the
middle stroke (index 1, cost 1). -/
theorem nnBest_fix1 :
    nnBest (0, 0) [strokeA, strokeB, strokeC] = some (1, 1, false) := by
  norm_num [nnBest, strokeA, strokeB, strokeC, nnCost_single, distFix1, distFix2, distFix3]

/-- Helper: second greedy selection of the fixture. -/
theorem nnBest_fix2 :
    nnBest (1, 0) [strokeA, strokeC] = some (1, 3/2, false) := by
  norm_num [nnBest, strokeA, strokeC, nnCost_single, distFix4, distFix5]

/-- Helper: third greedy selection of the fixture. -/
theorem nnBest_fix3 :
    nnBest (5/2, 0) [strokeA] = some (0, 4, false) := by
  norm_num [nnBest, strokeA, nnCost_single, distFix6]

/-- Helper: the greedy tour on the fixture is `B, C, A`. -/
theorem optimize_fix :
    optimize_order_nn (0, 0) [strokeA, strokeB, strokeC] = [strokeB, strokeC, strokeA] := by
  rw [optimize_order_nn_step (0,0) [strokeA, strokeB, strokeC] 1 1 false strokeB
      nnBest_fix1 rfl,
    show setRev strokeB false = strokeB from rfl,
    show strokeB.endpoints.2 = ((1:ℚ), (0:ℚ)) from rfl,
    show [strokeA, strokeB, strokeC].eraseIdx 1 = [strokeA, strokeC] from rfl,
    optimize_order_nn_step (1,0) [strokeA, strokeC] 1 (3/2) false strokeC
      nnBest_fix2 rfl,
    show setRev strokeC false = strokeC from rfl,
    show strokeC.endpoints.2 = ((5/2:ℚ), (0:ℚ)) from rfl,
    show [strokeA, strokeC].eraseIdx 1 = [strokeA] from rfl,
    optimize_order_nn_step (5/2,0) [strokeA] 0 4 false strokeA
      nnBest_fix3 rfl,
    show setRev strokeA false = strokeA from rfl]
  rfl

/-- Helper: travel of the fixture in its original order. -/
theorem travel_fix_before :
    travel_estimate (0, 0) [strokeA, strokeB, strokeC] = 11/2 := by
  have hA : strokeA.endpoints = ((-3/2, 0), (-3/2, 0)) := rfl
  have hB : strokeB.endpoints = ((1, 0), (1, 0)) := rfl
  have hC : strokeC.endpoints = ((5/2, 0), (5/2, 0)) := rfl
  rw [travel_estimate, travel_estimate, travel_estimate, travel_estimate,
    hA, hB, hC]
  norm_num [distFix1, distFix7, distFix5]

/-- Helper: travel of the fixture in greedy order. -/
theorem travel_fix_after :
    travel_estimate (0, 0) [strokeB, strokeC, strokeA] = 13/2 := by
  have hA : strokeA.endpoints = ((-3/2, 0), (-3/2, 0)) := rfl
  have hB : strokeB.endpoints = ((1, 0), (1, 0)) := rfl
  have hC : strokeC.endpoints = ((5/2, 0), (5/2, 0)) := rfl
  rw [travel_estimate, travel_estimate, travel_estimate, travel_estimate,
    hA, hB, hC]
  norm_num [distFix2, distFix5, distFix6]

/-- Counterexample to C5 as stated: on the three-stroke fixture the greedy
nearest-neighbour order (`B, C, A`) has total travel 13/2, strictly more
than the 11/2 of the original order, so the reordering does not always
avoid increasing total travel. -/
theorem optimize_order_nn_counterexample :
    travel_estimate (0, 0) [strokeA, strokeB, strokeC] = 11/2 ∧
    travel_estimate (0, 0) (optimize_order_nn (0, 0) [strokeA, strokeB, strokeC]) = 13/2 ∧
    travel_estimate (0, 0) [strokeA, strokeB, strokeC] <
      travel_estimate (0, 0) (optimize_order_nn (0, 0) [strokeA, strokeB, strokeC]) := by
  refine ⟨travel_fix_before, ?_, ?_⟩
  · rw [optimize_fix, travel_fix_after]
  · rw [optimize_fix, travel_fix_after, travel_fix_before]
    norm_num

/-- Claim C5 (amended): `optimize_order_nn` performs the greedy
nearest-neighbour tour: the candidate cost of a stroke is the smaller of the
distances to its two endpoints with the reversal flag set exactly when the
tail is strictly nearer; the selection has minimal cost with ties resolved
by first-encountered index; each step emits the selected stroke and
continues from its far endpoint; on the fixture the nearer stroke is chosen
first. The resulting order can, however, increase total travel. -/
theorem optimize_order_nn_spec :
    (∀ (cur : Pt) (it : Polyline), nnCost cur it =
        (min (distR cur it.endpoints.1) (distR cur it.endpoints.2),
          decide (distR cur it.endpoints.2 < distR cur it.endpoints.1))) ∧
    (∀ (cur : Pt) (l : List Polyline) (j : ℕ) (c : ℝ) (g : Bool),
      nnBest cur l = some (j, c, g) →
      ∃ hj : j < l.length,
        c = (nnCost cur (l.get ⟨j, hj⟩)).1 ∧ g = (nnCost cur (l.get ⟨j, hj⟩)).2 ∧
        (∀ i (hi : i < l.length), c ≤ (nnCost cur (l.get ⟨i, hi⟩)).1) ∧
        (∀ i, i < j → ∀ hi : i < l.length, c < (nnCost cur (l.get ⟨i, hi⟩)).1)) ∧
    (∀ (cur : Pt) (l : List Polyline) (j : ℕ) (c : ℝ) (g : Bool) (it0 : Polyline),
      nnBest cur l = some (j, c, g) → l.get? j = some it0 →
      optimize_order_nn cur l =
        setRev it0 g :: optimize_order_nn (setRev it0 g).endpoints.2 (l.eraseIdx j)) ∧
    optimize_order_nn (0, 0) [strokeA, strokeB, strokeC] = [strokeB, strokeC, strokeA] ∧
    (∃ (start : Pt) (items : List Polyline),
      travel_estimate start items < travel_estimate start (optimize_order_nn start items)) := by
  refine ⟨?_, fun cur l j c g hb => nnBest_spec cur l j c g hb,
    fun cur l j c g it0 hb hg => optimize_order_nn_step cur l j c g it0 hb hg,
    optimize_fix, ⟨(0, 0), [strokeA, strokeB, strokeC], ?_⟩⟩
  · intro cur it
    unfold nnCost
    by_cases h : distR cur it.endpoints.1 ≤ distR cur it.endpoints.2
    · rw [if_pos h, min_eq_left h, decide_eq_false (not_lt.2 h)]
    · push_neg at h
      rw [if_neg (not_le.2 h), min_eq_right h.le, decide_eq_true h]
  · rw [optimize_fix, travel_fix_before, travel_fix_after]
    norm_num

/-- Witness for C5 (amended) at the fixture: the greedy selection and the
step equation, instantiated concretely. -/
theorem optimize_order_nn_spec_witness :
    (∃ hj : 1 < [strokeA, strokeB, strokeC].length,
      (1:ℝ) = (nnCost (0, 0) ([strokeA, strokeB, strokeC].get ⟨1, hj⟩)).1 ∧
      false = (nnCost (0, 0) ([strokeA, strokeB, strokeC].get ⟨1, hj⟩)).2 ∧
      (∀ i (hi : i < [strokeA, strokeB, strokeC].length),
        (1:ℝ) ≤ (nnCost (0, 0) ([strokeA, strokeB, strokeC].get ⟨i, hi⟩)).1) ∧
      (∀ i, i < 1 → ∀ hi : i < [strokeA, strokeB, strokeC].length,
        (1:ℝ) < (nnCost (0, 0) ([strokeA, strokeB, strokeC].get ⟨i, hi⟩)).1)) ∧
    optimize_order_nn (0, 0) [strokeA, strokeB, strokeC] =
      setRev strokeB false ::
        optimize_order_nn (setRev strokeB false).endpoints.2
          ([strokeA, strokeB, strokeC].eraseIdx 1) :=
  ⟨optimize_order_nn_spec.2.1 (0, 0) _ 1 1 false nnBest_fix1,
    optimize_order_nn_spec.2.2.1 (0, 0) _ 1 1 false strokeB nnBest_fix1 rfl⟩

/-! ## Ramer-Douglas-Peucker simplification (`_rdp`) -/

/-- The perpendicular-distance computation inside `_rdp`: distance from `p`
to the segment `ab` (with the parameter clamped into `[0,1]`), or to `a`
itself when the segment is degenerate. -/
noncomputable def perp_d (a b p : Pt) : ℝ :=
  let dx := b.1 - a.1
  let dy := b.2 - a.2
  if dx = 0 ∧ dy = 0 then distR p a
  else
    let t := max 0 (min 1 (((p.1 - a.1) * dx + (p.2 - a.2) * dy) / (dx * dx + dy * dy)))
    distR p (a.1 + t * dx, a.2 + t * dy)

/-- The inner `for i in range(i0+1, i1)` scan of `_rdp`: fold over the index
range carrying the maximum distance (starting at `-1`) and its index,
updating only on strictly larger distance. -/
noncomputable def maxScan (pts : List Pt) (a b : Pt) :
    List ℕ → ℝ × Option ℕ → ℝ × Option ℕ
  | [], acc => acc
  | i :: rest, (md, idx) =>
    let d := perp_d a b (pts.getD i (0, 0))
    if md < d then maxScan pts a b rest (d, some i)
    else maxScan pts a b rest (md, idx)

/-- The stack-driven loop of `_rdp`: pop an index interval, find the interior
point of maximum perpendicular distance, and when it exceeds `eps` mark it
kept and push the two sub-intervals (the upper one on top, matching the
order of `stack.append` and `stack.pop`). The fuel `2 * |pts| + 1` bounds
the number of processed intervals. -/
noncomputable def rdpLoop (pts : List Pt) (eps : ℝ) :
    ℕ → List (ℕ × ℕ) → List Bool → List Bool
  | 0, _, keep => keep
  | _+1, [], keep => keep
  | fuel+1, (i0, i1) :: stack, keep =>
    let a := pts.getD i0 (0, 0)
    let b := pts.getD i1 (0, 0)
    let r := maxScan pts a b (List.range' (i0+1) (i1 - i0 - 1)) (-1, none)
    match r.2 with
    | some k =>
      if eps < r.1 then
        rdpLoop pts eps fuel ((k, i1) :: (i0, k) :: stack) (keep.set k true)
      else rdpLoop pts eps fuel stack keep
    | none => rdpLoop pts eps fuel stack keep

/-- The final `[p for p, k in zip(pts, keep) if k]` filter of `_rdp`. -/
def filterMask : List Pt → List Bool → List Pt
  | [], _ => []
  | _ :: _, [] => []
  | p :: ps, k :: ks => if k then p :: filterMask ps ks else filterMask ps ks

/-- Embedding of `_rdp` (`pattern.py` / `penplotter/geometry.py`):
Ramer-Douglas-Peucker simplification; lists of at most two points are
returned as copies, otherwise both endpoints are pre-marked kept and the
stack loop marks the interior points to keep. -/
noncomputable def rdp (pts : List Pt) (eps : ℝ) : List Pt :=
  if pts.length ≤ 2 then pts
  else
    let keep0 := ((List.replicate pts.length false).set 0 true).set (pts.length - 1) true
    let keep := rdpLoop pts eps (2 * pts.length + 1) [(0, pts.length - 1)] keep0
    filterMask pts keep

/-- Helper: the marking loop preserves the length of the keep mask. -/
theorem rdpLoop_length (pts : List Pt) (eps : ℝ) :
    ∀ fuel stack keep, (rdpLoop pts eps fuel stack keep).length = keep.length := by
  intro fuel
  induction fuel with
  | zero => intro stack keep; rfl
  | succ fuel ih =>
    intro stack keep
    cases stack with
    | nil => rfl
    | cons iv stack =>
      obtain ⟨i0, i1⟩ := iv
      rw [rdpLoop]
      split
      · split
        · rw [ih, List.length_set]
        · rw [ih]
      · rw [ih]

/-- Helper: setting one mask entry to true never clears a kept flag. -/
theorem getD_set_true (keep : List Bool) (k i : ℕ) (h : keep.getD i false = true) :
    (keep.set k true).getD i false = true := by
  by_cases hik : k = i
  · subst hik
    by_cases hk : k < keep.length
    · simp [List.getD, List.getElem?_set_self hk]
    · rw [List.set_eq_of_length_le (le_of_not_lt hk)]
      exact h
  · simpa [List.getD, List.getElem?_set_ne hik] using h

/-- Helper: the marking loop never clears a kept flag. -/
theorem rdpLoop_true (pts : List Pt) (eps : ℝ) :
    ∀ fuel stack keep i, keep.getD i false = true →
      (rdpLoop pts eps fuel stack keep).getD i false = true := by
  intro fuel
  induction fuel with
  | zero => intro stack keep i h; exact h
  | succ fuel ih =>
    intro stack keep i h
    cases stack with
    | nil => exact h
    | cons iv stack =>
      obtain ⟨i0, i1⟩ := iv
      rw [rdpLoop]
      split
      · split
        · exact ih _ _ _ (getD_set_true keep _ i h)
        · exact ih _ _ _ h
      · exact ih _ _ _ h

/-- Helper: the mask filter returns a sublist of the original points. -/
theorem filterMask_sublist : ∀ (l : List Pt) (m : List Bool),
    List.Sublist (filterMask l m) l := by
  intro l
  induction l with
  | nil =>
    intro m
    cases m <;> exact List.Sublist.refl []
  | cons p ps ih =>
    intro m
    cases m with
    | nil => exact List.nil_sublist _
    | cons k ks =>
      rw [filterMask]
      split
      · exact (ih ks).cons₂ p
      · exact (ih ks).cons p

/-- Helper: filtering with a true head keeps the head. -/
theorem filterMask_cons_true (p : Pt) (ps : List Pt) (ks : List Bool) :
    filterMask (p :: ps) (true :: ks) = p :: filterMask ps ks := by
  rw [filterMask]
  simp

/-- Helper: the mask filter distributes over appends of equal length. -/
theorem filterMask_append : ∀ (l1 : List Pt) (m1 : List Bool), l1.length = m1.length →
    ∀ (l2 : List Pt) (m2 : List Bool),
      filterMask (l1 ++ l2) (m1 ++ m2) = filterMask l1 m1 ++ filterMask l2 m2 := by
  intro l1
  induction l1 with
  | nil =>
    intro m1 h l2 m2
    cases m1 with
    | nil => simp [filterMask]
    | cons k ks => simp at h
  | cons p ps ih =>
    intro m1 h l2 m2
    cases m1 with
    | nil => simp at h
    | cons k ks =>
      simp only [List.cons_append, filterMask, List.append_eq]
      rw [ih ks (by simpa using h)]
      split
      · rfl
      · rfl

/-- Helper: the mask filter keeps the head when the mask starts true. -/
theorem filterMask_head? (l : List Pt) (m : List Bool)
    (h0 : m.getD 0 false = true) (hne : l ≠ []) :
    (filterMask l m).head? = l.head? := by
  cases l with
  | nil => exact absurd rfl hne
  | cons p ps =>
    cases m with
    | nil => simp [List.getD] at h0
    | cons k ks =>
      have hk : k = true := by simpa [List.getD] using h0
      subst hk
      rw [filterMask_cons_true]
      rfl

/-- Helper: the mask filter keeps the last element when the mask ends true. -/
theorem filterMask_getLast? (l : List Pt) (m : List Bool) (hlen : m.length = l.length)
    (hlast : m.getD (l.length - 1) false = true) (hne : l ≠ []) :
    (filterMask l m).getLast? = l.getLast? := by
  have hlpos : 0 < l.length := List.length_pos.2 hne
  have hmne : m ≠ [] := by
    intro hc
    rw [hc] at hlen
    simp at hlen
    omega
  have hidx : m.length - 1 < m.length := by omega
  have hlast_true : m.getLast hmne = true := by
    rw [List.getLast_eq_getElem]
    rw [List.getD, List.get?_eq_getElem?, ← hlen] at hlast
    rwa [List.getElem?_eq_getElem hidx, Option.getD_some] at hlast
  have hdecomp_l : l.dropLast ++ [l.getLast hne] = l := List.dropLast_append_getLast hne
  have hdecomp_m : m.dropLast ++ [m.getLast hmne] = m := List.dropLast_append_getLast hmne
  have hlen_drop : l.dropLast.length = m.dropLast.length := by
    simp [List.length_dropLast, hlen]
  conv_lhs => rw [← hdecomp_l, ← hdecomp_m]
  rw [hlast_true, filterMask_append l.dropLast m.dropLast hlen_drop]
  show (filterMask l.dropLast m.dropLast ++ [l.getLast hne]).getLast? = l.getLast?
  rw [List.getLast?_concat, List.getLast?_eq_getLast_of_ne_nil hne]

/-- Claim C8: for every point list and positive `max_deviation`, RDP
simplification returns a subsequence of the original points (so it never
introduces a new point), and it always retains both original endpoints. -/
theorem rdp_spec (pts : List Pt) (eps : ℝ) (heps : 0 < eps) :
    List.Sublist (rdp pts eps) pts ∧
    (∀ p ∈ rdp pts eps, p ∈ pts) ∧
    (pts ≠ [] → (rdp pts eps).head? = pts.head?) ∧
    (pts ≠ [] → (rdp pts eps).getLast? = pts.getLast?) := by
  by_cases hlen : pts.length ≤ 2
  · unfold rdp
    rw [if_pos hlen]
    exact ⟨List.Sublist.refl _, fun p hp => hp, fun _ => rfl, fun _ => rfl⟩
  · unfold rdp
    rw [if_neg hlen]
    push_neg at hlen
    set keep0 := ((List.replicate pts.length false).set 0 true).set (pts.length - 1) true
      with hkeep0
    set keep := rdpLoop pts eps (2 * pts.length + 1) [(0, pts.length - 1)] keep0 with hkeep
    have hklen : keep.length = pts.length := by
      rw [hkeep, rdpLoop_length, hkeep0]
      simp
    have hk0 : keep.getD 0 false = true := by
      rw [hkeep]
      apply rdpLoop_true
      rw [hkeep0, List.getD, List.get?_eq_getElem?, List.getElem?_set_ne (by omega),
        List.getElem?_set_self (by simp; omega)]
      rfl
    have hklast : keep.getD (pts.length - 1) false = true := by
      rw [hkeep]
      apply rdpLoop_true
      rw [hkeep0, List.getD, List.get?_eq_getElem?,
        List.getElem?_set_self (by simp; omega)]
      rfl
    have hne : pts ≠ [] := by
      intro hc
      rw [hc] at hlen
      simp at hlen
    exact ⟨filterMask_sublist pts keep, fun p hp => (filterMask_sublist pts keep).subset hp,
      fun _ => filterMask_head? pts keep hk0 hne,
      fun _ => filterMask_getLast? pts keep hklen hklast hne⟩

/-- Witness for C8 at a concrete three-point stroke. -/
theorem rdp_spec_witness :
    (0:ℝ) < 1/2 ∧ ([((0:ℚ),(0:ℚ)), (1,1), (2,0)] : List Pt) ≠ [] ∧
    List.Sublist (rdp [((0:ℚ),(0:ℚ)), (1,1), (2,0)] (1/2)) [((0:ℚ),(0:ℚ)), (1,1), (2,0)] ∧
    (rdp [((0:ℚ),(0:ℚ)), (1,1), (2,0)] (1/2)).head? = some ((0:ℚ),(0:ℚ)) ∧
    (rdp [((0:ℚ),(0:ℚ)), (1,1), (2,0)] (1/2)).getLast? = some ((2:ℚ),(0:ℚ)) := by
  have h := rdp_spec [((0:ℚ),(0:ℚ)), (1,1), (2,0)] (1/2) (by norm_num)
  have hne : ([((0:ℚ),(0:ℚ)), (1,1), (2,0)] : List Pt) ≠ [] := by simp
  exact ⟨by norm_num, hne, h.1, h.2.2.1 hne, h.2.2.2 hne⟩

/-! ## Circle polygonization (`Circle.to_polyline`) -/

/-- Embedding of the geometric fields of `Circle` (`pattern.py`); the pen
metadata fields are copied verbatim into the produced polyline and are not
modelled here. -/
structure CircleS where
  c : ℝ × ℝ
  r : ℝ
  start_deg : ℝ := 0
  sweep_deg : ℝ := 360
  seg_len_mm : ℝ := 3/10
  _rev : Bool := false

/-- Embedding of `Circle._point_at`. -/
noncomputable def point_at (cir : CircleS) (ang_deg : ℝ) : ℝ × ℝ :=
  (cir.c.1 + cir.r * Real.cos (radians ang_deg),
    cir.c.2 + cir.r * Real.sin (radians ang_deg))

/-- The segment count of `Circle.to_polyline`:
`max(3, ceil(|sweep_radians| * r / max(1e-9, seg_len_mm)))`. -/
noncomputable def nSeg (cir : CircleS) : ℤ :=
  max 3 ⌈(|radians cir.sweep_deg| * cir.r) / (max (1/1000000000) cir.seg_len_mm)⌉

/-- Embedding of the point list built by `Circle.to_polyline`: `n+1` samples
at equal parameter steps from the start angle to the end angle inclusive,
the two angles being swapped first when the reversal flag is set. -/
noncomputable def to_polyline_pts (cir : CircleS) : List (ℝ × ℝ) :=
  let n := (nSeg cir).toNat
  let s := if cir._rev then cir.start_deg + cir.sweep_deg else cir.start_deg
  let e := if cir._rev then cir.start_deg else cir.start_deg + cir.sweep_deg
  (List.range (n + 1)).map (fun (k : ℕ) => point_at cir (s + (e - s) * ((k : ℝ) / (n : ℝ))))

/-- Helper: sampled angles are periodic in a full 360-degree shift. -/
theorem point_at_add_360 (cir : CircleS) (a : ℝ) :
    point_at cir (a + 360) = point_at cir a := by
  unfold point_at radians
  rw [show (a + 360) * Real.pi / 180 = a * Real.pi / 180 + 2 * Real.pi by ring,
    Real.cos_add_two_pi, Real.sin_add_two_pi]

/-- Helper: the segment count is at least 3. -/
theorem nSeg_ge_three (cir : CircleS) : 3 ≤ nSeg cir := le_max_left _ _

/-- Helper: index formula for the sampled points. -/
theorem to_polyline_pts_get? (cir : CircleS) (k : ℕ) (hk : k ≤ (nSeg cir).toNat) :
    (to_polyline_pts cir).get? k = some (point_at cir
      ((if cir._rev then cir.start_deg + cir.sweep_deg else cir.start_deg) +
        ((if cir._rev then cir.start_deg else cir.start_deg + cir.sweep_deg) -
          (if cir._rev then cir.start_deg + cir.sweep_deg else cir.start_deg)) *
          ((k : ℝ) / (((nSeg cir).toNat : ℕ) : ℝ)))) := by
  unfold to_polyline_pts
  rw [List.get?_eq_getElem?, List.getElem?_map, List.getElem?_range (by omega)]
  rfl

/-- Claim C7: adding a circle polygonizes it with segment count
`n = max(3, ceil(|sweep_radians| * radius / chord_tolerance))` (the code
additionally guards the tolerance below by `1e-9`), sampling `n+1` points at
equal angular steps from the start to the end angle inclusive; for a full
360-degree sweep the first and last points coincide (exactly, hence within
`1e-6`); when the reversal flag is set the start and end angles are swapped
before sampling rather than the point list being reversed afterwards. -/
theorem circle_to_polyline_spec (cir : CircleS) :
    ((1:ℝ)/1000000000 ≤ cir.seg_len_mm →
      nSeg cir = max 3 ⌈(|radians cir.sweep_deg| * cir.r) / cir.seg_len_mm⌉) ∧
    3 ≤ nSeg cir ∧
    (to_polyline_pts cir).length = (nSeg cir).toNat + 1 ∧
    (∀ k, k ≤ (nSeg cir).toNat →
      (to_polyline_pts cir).get? k = some (point_at cir
        ((if cir._rev then cir.start_deg + cir.sweep_deg else cir.start_deg) +
          ((if cir._rev then cir.start_deg else cir.start_deg + cir.sweep_deg) -
            (if cir._rev then cir.start_deg + cir.sweep_deg else cir.start_deg)) *
            ((k : ℝ) / (((nSeg cir).toNat : ℕ) : ℝ))))) ∧
    (cir.sweep_deg = 360 →
      (to_polyline_pts cir).head? = (to_polyline_pts cir).getLast?) := by
  have hn3 : 3 ≤ (nSeg cir).toNat := by
    have := nSeg_ge_three cir
    omega
  refine ⟨?_, nSeg_ge_three cir, ?_, to_polyline_pts_get? cir, ?_⟩
  · intro htol
    unfold nSeg
    rw [max_eq_right htol]
  · unfold to_polyline_pts
    rw [List.length_map, List.length_range]
  · intro hsw
    have hne : ((nSeg cir).toNat : ℝ) ≠ 0 := by
      have : (0:ℕ) < (nSeg cir).toNat := by omega
      exact_mod_cast Nat.pos_iff_ne_zero.1 this
    have hhead := to_polyline_pts_get? cir 0 (by omega)
    have hlast := to_polyline_pts_get? cir (nSeg cir).toNat le_rfl
    have hlen : (to_polyline_pts cir).length = (nSeg cir).toNat + 1 := by
      unfold to_polyline_pts
      simp
    have hh : (to_polyline_pts cir).head? = (to_polyline_pts cir).get? 0 := by
      cases hl : to_polyline_pts cir with
      | nil => rfl
      | cons a l => rfl
    have hg : (to_polyline_pts cir).getLast? = (to_polyline_pts cir).get? ((nSeg cir).toNat) := by
      rw [List.getLast?_eq_getElem?, List.get?_eq_getElem?, hlen]
      norm_num
    rw [hh, hg, hhead, hlast, hsw]
    by_cases hrev : cir._rev = true
    · simp only [if_pos hrev]
      rw [show cir.start_deg + 360 + (cir.start_deg - (cir.start_deg + 360)) *
            (((0:ℕ) : ℝ) / (((nSeg cir).toNat : ℕ) : ℝ)) = cir.start_deg + 360 by
          push_cast; ring,
        div_self hne,
        show cir.start_deg + 360 + (cir.start_deg - (cir.start_deg + 360)) * 1
            = cir.start_deg by ring,
        point_at_add_360]
    · simp only [if_neg hrev]
      rw [show cir.start_deg + (cir.start_deg + 360 - cir.start_deg) *
            (((0:ℕ) : ℝ) / (((nSeg cir).toNat : ℕ) : ℝ)) = cir.start_deg by
          push_cast; ring,
        div_self hne,
        show cir.start_deg + (cir.start_deg + 360 - cir.start_deg) * 1
            = cir.start_deg + 360 by ring,
        point_at_add_360]

/-- Witness for C7: the spec fixture, radius 10, full sweep, chord
tolerance `0.3`, for which the segment count evaluates to 210. -/
theorem circle_to_polyline_spec_witness :
    (1:ℝ)/1000000000 ≤ (3:ℝ)/10 ∧
    nSeg ⟨(0, 0), 10, 0, 360, 3/10, false⟩ =
      max 3 ⌈(|radians 360| * 10) / ((3:ℝ)/10)⌉ ∧
    nSeg ⟨(0, 0), 10, 0, 360, 3/10, false⟩ = 210 ∧
    (to_polyline_pts ⟨(0, 0), 10, 0, 360, 3/10, false⟩).length =
      (nSeg ⟨(0, 0), 10, 0, 360, 3/10, false⟩).toNat + 1 ∧
    (to_polyline_pts ⟨(0, 0), 10, 0, 360, 3/10, false⟩).head? =
      (to_polyline_pts ⟨(0, 0), 10, 0, 360, 3/10, false⟩).getLast? := by
  have h := circle_to_polyline_spec ⟨(0, 0), 10, 0, 360, 3/10, false⟩
  have htol : (1:ℝ)/1000000000 ≤ (3:ℝ)/10 := by norm_num
  have hval : nSeg ⟨(0, 0), 10, 0, 360, 3/10, false⟩ = 210 := by
    have h1 := h.1 htol
    rw [h1]
    have hrad : radians 360 = 2 * Real.pi := by
      unfold radians
      ring
    rw [hrad, abs_of_pos (by positivity)]
    have hc : ⌈(2 * Real.pi * 10) / ((3:ℝ)/10)⌉ = (210 : ℤ) := by
      rw [Int.ceil_eq_iff]
      constructor
      · push_cast
        nlinarith [Real.pi_gt_d2]
      · push_cast
        nlinarith [Real.pi_lt_d2]
    rw [hc]
    rfl
  exact ⟨htol, h.1 htol, hval, h.2.2.1, h.2.2.2.2 rfl⟩

/-! ## Execution engine (`Renderer.run` / `Renderer._run_polyline`) -/

/-- A device command issued by the renderer: a servo/pen command (`M3 S..`
via `pen_set`), a rapid travel move (`G0`), or a draw move (`G1`). -/
inductive Ev where
  | pen (v : ℚ)
  | move (x y : ℚ)
  | draw (x y : ℚ)
  deriving DecidableEq

/-- Embedding of `GRBL._apply_pos_offset`: add the offset, clip a negative
result to 0 (with a non-fatal warning), cap at 1. -/
def apply_pos_offset (base off : ℚ) : ℚ := min 1 (max 0 (base + off))

/-- Embedding of `GRBL.compensated_pos`: the compensation surface height at
`(x, y)` (or 1 with no surface) plus the offset, clipped. -/
def compensated_pos (comp : Option Compensation) (x y off : ℚ) : ℚ :=
  apply_pos_offset (match comp with | some c => height_at c x y | none => 1) off

/-- Embedding of `Renderer._partial_lift_to_travel`: one pen command at the
compensated baseline of the given point plus the lift delta, capped at 1. -/
def partialLiftEv (comp : Option Compensation) (lift : ℚ) (xy : Pt) : Ev :=
  Ev.pen (min 1 (compensated_pos comp xy.1 xy.2 0 + lift))

/-- Embedding of `Renderer._travel_to`: a partial lift at the current
position (or a full pen-up when there is none), then the rapid move. -/
def travelToEvs (comp : Option Compensation) (lift : ℚ) (cur : Option Pt) (dst : Pt) :
    List Ev :=
  (match cur with
   | some c => [partialLiftEv comp lift c]
   | none => [Ev.pen 1]) ++ [Ev.move dst.1 dst.2]

/-- Compensated height at a segment midpoint, as computed by the
`per_segment` and `threshold` modes. -/
def segMidZ (comp : Option Compensation) (press : ℚ) (a b : Pt) : ℚ :=
  compensated_pos comp ((a.1 + b.1) / 2) ((a.2 + b.2) / 2) press

/-- The `threshold` drawing loop: reissue the pen command only when the new
midpoint height differs from the held height by more than the threshold. -/
def thresholdEvs (comp : Option Compensation) (press thr : ℚ) :
    ℚ → List (Pt × Pt) → List Ev
  | _, [] => []
  | curz, (a, b) :: rest =>
    let z := segMidZ comp press a b
    if thr < |z - curz| then
      Ev.pen z :: Ev.draw b.1 b.2 :: thresholdEvs comp press thr z rest
    else Ev.draw b.1 b.2 :: thresholdEvs comp press thr curz rest

/-- The per-mode drawing phase of `Renderer._run_polyline`: the commands
issued after the travel move, or `none` when the height policy is unknown
(the `raise ValueError` branch). -/
def drawEvs (mode : String) (comp : Option Compensation) (press thr : ℚ)
    (pts : List Pt) : Option (List Ev) :=
  match pts with
  | p0 :: p1 :: rest =>
    if mode = "start" then
      let z := compensated_pos comp p0.1 p0.2 press
      some (Ev.pen z :: (p1 :: rest).map (fun p => Ev.draw p.1 p.2))
    else if mode = "centroid" then
      let n : ℚ := ((p0 :: p1 :: rest).length : ℚ)
      let zx := ((p0 :: p1 :: rest).map Prod.fst).sum / n
      let zy := ((p0 :: p1 :: rest).map Prod.snd).sum / n
      let z := compensated_pos comp zx zy press
      some (Ev.pen z :: (p1 :: rest).map (fun p => Ev.draw p.1 p.2))
    else if mode = "per_segment" then
      let z0 := segMidZ comp press p0 p1
      some (Ev.pen z0 ::
        ((p0 :: p1 :: rest).zip (p1 :: rest)).bind
          (fun ab => [Ev.pen (segMidZ comp press ab.1 ab.2), Ev.draw ab.2.1 ab.2.2]))
    else if mode = "threshold" then
      let z0 := segMidZ comp press p0 p1
      some (Ev.pen z0 ::
        thresholdEvs comp press thr z0 ((p0 :: p1 :: rest).zip (p1 :: rest)))
    else none
  | _ => none

/-- Embedding of `Renderer._run_polyline`: skip strokes with fewer than two
points; otherwise travel to the (possibly reversed) start point, run the
per-mode drawing phase — an unknown mode raises after the travel move — and
finish with a partial lift at the stroke end. Returns the issued commands,
an error flag, and the new current position. -/
def runPolyline (mode : String) (comp : Option Compensation) (thr lift : ℚ)
    (cur : Option Pt) (it : Polyline) : List Ev × Bool × Option Pt :=
  if it.pts.length < 2 then ([], false, cur)
  else
    match (if it._rev then it.pts.reverse else it.pts) with
    | [] => ([], false, cur)
    | p0 :: rest =>
      let evT := travelToEvs comp lift cur p0
      match drawEvs mode comp it.pen_pressure thr (p0 :: rest) with
      | none => (evT, true, some p0)
      | some evD =>
        (evT ++ evD ++
            [partialLiftEv comp lift ((p0 :: rest).getLast (List.cons_ne_nil p0 rest))],
          false, some ((p0 :: rest).getLast (List.cons_ne_nil p0 rest)))

/-- The per-stroke loop of `Renderer.run`, aborting on the first error. -/
def runItems (mode : String) (comp : Option Compensation) (thr lift : ℚ) :
    Option Pt → List Polyline → List Ev × Bool × Option Pt
  | cur, [] => ([], false, cur)
  | cur, it :: rest =>
    let r := runPolyline mode comp thr lift cur it
    if r.2.1 then (r.1, true, r.2.2)
    else
      let r2 := runItems mode comp thr lift r.2.2 rest
      (r.1 ++ r2.1, r2.2.1, r2.2.2)

/-- Embedding of `Renderer.run` (execution phase, no optimizer passes):
run every stroke in order and, unless an error aborted the run, optionally
lift fully and travel home. -/
def runPattern (mode : String) (comp : Option Compensation) (thr lift : ℚ)
    (start : Pt) (items : List Polyline) (return_home : Bool) : List Ev × Bool :=
  let r := runItems mode comp thr lift (some start) items
  if r.2.1 then (r.1, true)
  else
    (r.1 ++ (if return_home then Ev.pen 1 :: travelToEvs comp lift r.2.2 (0, 0) else []),
      false)

/-- Helper: unknown height policies make the drawing phase fail. -/
theorem drawEvs_unknown (mode : String) (comp : Option Compensation) (press thr : ℚ)
    (pts : List Pt)
    (hmode : mode ∉ (["start", "centroid", "per_segment", "threshold"] : List String)) :
    drawEvs mode comp press thr pts = none := by
  simp only [List.mem_cons, List.mem_singleton, not_or] at hmode
  obtain ⟨h1, h2, h3, h4, -⟩ := hmode
  match pts with
  | [] => rfl
  | [p] => rfl
  | p0 :: p1 :: rest =>
    rw [drawEvs, if_neg h1, if_neg h2, if_neg h3, if_neg h4]

/-- Helper: travel commands contain a move and never a draw. -/
theorem travelToEvs_shape (comp : Option Compensation) (lift : ℚ) (cur : Option Pt)
    (dst : Pt) :
    travelToEvs comp lift cur dst ≠ [] ∧
    ∀ x y, Ev.draw x y ∉ travelToEvs comp lift cur dst := by
  cases cur with
  | none =>
    refine ⟨by simp [travelToEvs], ?_⟩
    intro x y h
    simp [travelToEvs] at h
  | some c =>
    refine ⟨by simp [travelToEvs], ?_⟩
    intro x y h
    simp [travelToEvs, partialLiftEv] at h

/-- Helper: under an unknown mode a drawable stroke aborts right after its
travel move. -/
theorem runPolyline_unknown (mode : String) (comp : Option Compensation) (thr lift : ℚ)
    (cur : Option Pt) (it : Polyline)
    (hmode : mode ∉ (["start", "centroid", "per_segment", "threshold"] : List String))
    (hlen : 2 ≤ it.pts.length) :
    ∃ p0, runPolyline mode comp thr lift cur it =
      (travelToEvs comp lift cur p0, true, some p0) := by
  unfold runPolyline
  rw [if_neg (by omega)]
  have hne : (if it._rev then it.pts.reverse else it.pts) ≠ [] := by
    split
    · simp only [ne_eq, List.reverse_eq_nil_iff]
      intro hc
      rw [hc] at hlen
      simp at hlen
    · intro hc
      rw [hc] at hlen
      simp at hlen
  obtain ⟨p0, rest, hp⟩ : ∃ p0 rest,
      (if it._rev then it.pts.reverse else it.pts) = p0 :: rest := by
    cases hc : (if it._rev then it.pts.reverse else it.pts) with
    | nil => exact absurd hc hne
    | cons a l => exact ⟨a, l, rfl⟩
  rw [hp]
  refine ⟨p0, ?_⟩
  simp only [drawEvs_unknown mode comp it.pen_pressure thr (p0 :: rest) hmode]

/-- Helper: under an unknown mode, once some stroke is drawable the run
errors out, emits no draw command, and has issued at least one command. -/
theorem runItems_unknown (mode : String) (comp : Option Compensation) (thr lift : ℚ)
    (hmode : mode ∉ (["start", "centroid", "per_segment", "threshold"] : List String)) :
    ∀ (items : List Polyline) (cur : Option Pt),
      (∃ it ∈ items, 2 ≤ it.pts.length) →
      (runItems mode comp thr lift cur items).2.1 = true ∧
      (∀ x y, Ev.draw x y ∉ (runItems mode comp thr lift cur items).1) ∧
      (runItems mode comp thr lift cur items).1 ≠ [] := by
  intro items
  induction items with
  | nil =>
    intro cur hdraw
    simp at hdraw
  | cons it rest ih =>
    intro cur hdraw
    rw [runItems]
    by_cases hl : 2 ≤ it.pts.length
    · obtain ⟨p0, hp⟩ := runPolyline_unknown mode comp thr lift cur it hmode hl
      rw [hp]
      simp only [if_pos rfl]
      obtain ⟨hne, hnodraw⟩ := travelToEvs_shape comp lift cur p0
      exact ⟨rfl, hnodraw, hne⟩
    · have hskip : runPolyline mode comp thr lift cur it = ([], false, cur) := by
        unfold runPolyline
        rw [if_pos (by omega)]
      rw [hskip]
      simp only [Bool.false_eq_true, if_false]
      have hrest : ∃ it2 ∈ rest, 2 ≤ it2.pts.length := by
        obtain ⟨it2, hmem, hlen2⟩ := hdraw
        rcases List.mem_cons.1 hmem with rfl | hmem
        · exact absurd hlen2 hl
        · exact ⟨it2, hmem, hlen2⟩
      obtain ⟨herr, hnodraw, hne⟩ := ih cur hrest
      refine ⟨herr, ?_, ?_⟩
      · intro x y h
        rw [List.nil_append] at h
        exact hnodraw x y h
      · rw [List.nil_append]
        exact hne

/-- Claim C6 (amended): with a height policy outside
`start | centroid | per_segment | threshold`, executing a pattern that
contains a drawable stroke raises the fatal error when that first drawable
stroke is reached: no draw command is ever issued and the home-return is
skipped, but the travel move (with its pen lift) to the first drawable
stroke start is issued before the error — the failure is not before all
motion. The error propagates (the run aborts, nothing is retried). -/
theorem renderer_unknown_zmode_spec (mode : String) (comp : Option Compensation)
    (thr lift : ℚ) (start : Pt) (items : List Polyline) (rh : Bool)
    (hmode : mode ∉ (["start", "centroid", "per_segment", "threshold"] : List String))
    (hdraw : ∃ it ∈ items, 2 ≤ it.pts.length) :
    (runPattern mode comp thr lift start items rh).2 = true ∧
    (∀ x y, Ev.draw x y ∉ (runPattern mode comp thr lift start items rh).1) ∧
    (runPattern mode comp thr lift start items rh).1 ≠ [] := by
  obtain ⟨herr, hnodraw, hne⟩ := runItems_unknown mode comp thr lift hmode items (some start) hdraw
  simp only [runPattern, herr, if_true]
  exact ⟨trivial, hnodraw, hne⟩

/-- Counterexample to C6 as stated: with unknown mode `"zigzag"` and one
drawable stroke, the run does error, but only after issuing a pen command
and a travel move — it does not fail before all motion commands. -/
theorem renderer_unknown_zmode_counterexample :
    runPattern "zigzag" none (1/50) (1/5) (0, 0)
        [⟨[(0, 0), (1, 1)], -1/10, none, 0, false⟩] true =
      ([Ev.pen 1, Ev.move 0 0], true) ∧
    ([Ev.pen 1, Ev.move 0 0] : List Ev) ≠ [] := by
  have h1 : ¬(("zigzag" : String) = "start") := by decide
  have h2 : ¬(("zigzag" : String) = "centroid") := by decide
  have h3 : ¬(("zigzag" : String) = "per_segment") := by decide
  have h4 : ¬(("zigzag" : String) = "threshold") := by decide
  constructor
  · norm_num [runPattern, runItems, runPolyline, travelToEvs, partialLiftEv,
      compensated_pos, apply_pos_offset, drawEvs, h1, h2, h3, h4]
  · simp

/-- Witness for C6 (amended) at the concrete fixture. -/
theorem renderer_unknown_zmode_spec_witness :
    (("zigzag" : String) ∉ (["start", "centroid", "per_segment", "threshold"] : List String)) ∧
    (∃ it ∈ [(⟨[(0, 0), (1, 1)], -1/10, none, 0, false⟩ : Polyline)], 2 ≤ it.pts.length) ∧
    (runPattern "zigzag" none (1/50) (1/5) (0, 0)
        [⟨[(0, 0), (1, 1)], -1/10, none, 0, false⟩] true).2 = true ∧
    (runPattern "zigzag" none (1/50) (1/5) (0, 0)
        [⟨[(0, 0), (1, 1)], -1/10, none, 0, false⟩] true).1 ≠ [] := by
  have hmode : ("zigzag" : String) ∉
      (["start", "centroid", "per_segment", "threshold"] : List String) := by decide
  have hdraw : ∃ it ∈ [(⟨[(0, 0), (1, 1)], -1/10, none, 0, false⟩ : Polyline)],
      2 ≤ it.pts.length := ⟨_, List.mem_singleton.2 rfl, by norm_num⟩
  have h := renderer_unknown_zmode_spec "zigzag" none (1/50) (1/5) (0, 0)
    [⟨[(0, 0), (1, 1)], -1/10, none, 0, false⟩] true hmode hdraw
  exact ⟨hmode, hdraw, h.1, h.2.2⟩

end PenPlotter
